import Mathlib

/-!
# Odd-even transposition sort (sequential and OpenMP variants)

A shallow embedding of `odd_even_seq.cpp`, `odd_even_omp.cpp` and
`generate_data.cpp`.

Modelling conventions.

* `std::vector<int>` is a `List Int`.  The sort engines only compare and swap
  elements, so no arithmetic on elements can overflow.
* `int n = arr.size()` is the length of the list.  Every vector the programs
  build comes from `read_data`, which allocates `int size` elements, so the
  conversion is exact there (`read_data_is_int_vector`).
* A `for` loop is a recursive function of the same shape (test, body,
  increment) over a bound on the number of iterations; the lemmas
  `sub_pass_loop_fuel` and `phase_loop_fuel` show that the bound is never what
  stops a loop.
* The functions return `void`; the embedding returns the final values of the
  local variables together with two ghost counters (comparisons evaluated and
  `std::swap` calls executed).
* A `#pragma omp parallel for` region is the sequence of its loop bodies in
  the order in which they take effect, each run by some worker of the team;
  which worker runs which index, and in which order, is a parameter
  (`Schedule`).
* Files are lists of characters; the stream operators are modelled for the
  "C" locale and a 32-bit `int`.
* The values drawn by the generator are a parameter; the generator's output
  file is a state on disk, read before and after the run.
-/

namespace OddEvenSort

/-! ## State of a sort call -/

/-- Local variables of a sort call: the vector `arr`, the flag `is_sorted`
(`is_sorted_global` in the OpenMP variant), the loop counter `phase`, and the
ghost counters `swaps` and `comparisons`. -/
structure SortState where
  arr : List Int
  is_sorted : Bool
  phase : Nat
  swaps : Nat
  comparisons : Nat
deriving DecidableEq, Repr

/-- Body of both inner loops:
`if (arr[i] > arr[i + 1]) { std::swap(arr[i], arr[i + 1]); is_sorted = false; }`. -/
def compare_swap (st : SortState) (i : Nat) : SortState :=
  if st.arr.getD i 0 > st.arr.getD (i + 1) 0 then
    { st with
      arr := (st.arr.set i (st.arr.getD (i + 1) 0)).set (i + 1) (st.arr.getD i 0)
      is_sorted := false
      swaps := st.swaps + 1
      comparisons := st.comparisons + 1 }
  else
    { st with comparisons := st.comparisons + 1 }

/-- Inner loop `for (int i = i0; i < n - 1; i += 2) body(i)`, the test
`i < n - 1` over `int` written `i + 1 < n`.  The first argument bounds the
number of iterations. -/
def sub_pass_loop (n : Nat) : Nat → Nat → SortState → SortState
  | 0, _, st => st
  | fuel + 1, i, st =>
    if i + 1 < n then sub_pass_loop n fuel (i + 2) (compare_swap st i) else st

/-- Odd sub-pass: `for (int i = 1; i < n - 1; i += 2)`. -/
def odd_pass (n : Nat) (st : SortState) : SortState :=
  sub_pass_loop n n 1 st

/-- Even sub-pass: `for (int i = 0; i < n - 1; i += 2)`. -/
def even_pass (n : Nat) (st : SortState) : SortState :=
  sub_pass_loop n n 0 st

/-- Body of the phase loop of `odd_even_sort_sequential`, followed by the
increment `++phase`. -/
def phase_body (n : Nat) (st : SortState) : SortState :=
  let st1 := { st with is_sorted := true }
  let st2 := odd_pass n st1
  let st3 := even_pass n st2
  { st3 with phase := st3.phase + 1 }

/-- Phase loop `for (int phase = 0; phase < n && !is_sorted; ++phase)`.  The
first argument bounds the number of iterations. -/
def phase_loop (n : Nat) : Nat → SortState → SortState
  | 0, st => st
  | fuel + 1, st =>
    if st.phase < n ∧ st.is_sorted = false then phase_loop n fuel (phase_body n st)
    else st

/-- State before the first statement of a sort call.  The flag is reported
as `false` when the function returns before declaring it. -/
def init_state (arr : List Int) : SortState :=
  { arr := arr, is_sorted := false, phase := 0, swaps := 0, comparisons := 0 }

/-- Function `odd_even_sort_sequential` with the final values of its locals. -/
def odd_even_sort_sequential_run (arr : List Int) : SortState :=
  let n := arr.length
  if n ≤ 1 then init_state arr
  else phase_loop n n (init_state arr)

/-- Function `odd_even_sort_sequential`: the vector after the call. -/
def odd_even_sort_sequential (arr : List Int) : List Int :=
  (odd_even_sort_sequential_run arr).arr

/-! ## OpenMP variant -/

/-- Iteration space of the canonical loop `for (int i = i0; i < n - 1; i += 2)`
that a `parallel for` distributes among the team. -/
def loop_indices (n : Nat) : Nat → Nat → List Nat
  | 0, _ => []
  | fuel + 1, i => if i + 1 < n then i :: loop_indices n fuel (i + 2) else []

/-- One execution of a `parallel for` region: the compare-and-swaps in the
order in which they take effect, each tagged with the worker that runs it. -/
abbrev Execution := List (Nat × Nat)

/-- Shared vector and per-worker private copies of the reduction variable
inside a `parallel for reduction(&&:is_sorted_phase)` region. -/
structure RegionState where
  st : SortState
  priv : Nat → Bool

/-- Loop body run by worker `e.1` at index `e.2`: the body of the sequential
loop with the worker's private copy in the place of `is_sorted_phase`. -/
def region_step (r : RegionState) (e : Nat × Nat) : RegionState :=
  let st1 := compare_swap { r.st with is_sorted := r.priv e.1 } e.2
  { st := { st1 with is_sorted := r.st.is_sorted }
    priv := Function.update r.priv e.1 st1.is_sorted }

/-- A `parallel for` region with `reduction(&&:is_sorted_phase)` run by a team
of `team` workers: private copies start as `true`, the events of `ex` are
applied, and at the closing barrier the copies are combined with the
original variable by `&&`. -/
def parallel_region (team : Nat) (ex : Execution) (st : SortState) : SortState :=
  let r := ex.foldl region_step { st := st, priv := fun _ => true }
  { r.st with is_sorted := st.is_sorted && (List.range team).all r.priv }

/-- A schedule gives, for each phase and each of its two regions
(`true` for the odd one), the execution of that region. -/
abbrev Schedule := Nat → Bool → Execution

/-- Body of the phase loop of `odd_even_sort_parallel`, followed by `++phase`.
Here `st.is_sorted` is `is_sorted_global` and the region variable is
`is_sorted_phase`. -/
def phase_body_parallel (team : Nat) (sched : Schedule) (st : SortState) : SortState :=
  let st1 := { st with is_sorted := true }
  let st2 := parallel_region team (sched st.phase true) st1
  let st3 := parallel_region team (sched st.phase false) st2
  { st3 with phase := st3.phase + 1 }

/-- Phase loop `for (int phase = 0; phase < n && !is_sorted_global; ++phase)`
of the OpenMP variant. -/
def phase_loop_parallel (n team : Nat) (sched : Schedule) : Nat → SortState → SortState
  | 0, st => st
  | fuel + 1, st =>
    if st.phase < n ∧ st.is_sorted = false then
      phase_loop_parallel n team sched fuel (phase_body_parallel team sched st)
    else st

/-- Team size after the `if (num_threads > 0)` statement: the requested count,
or the runtime default `omp_default` read by `omp_get_num_threads()`. -/
def resolve_threads (num_threads : Int) (omp_default : Nat) : Nat :=
  if num_threads > 0 then num_threads.toNat else omp_default

/-- Function `odd_even_sort_parallel` with the final values of its locals. -/
def odd_even_sort_parallel_run (arr : List Int) (num_threads : Int) (omp_default : Nat)
    (sched : Schedule) : SortState :=
  let n := arr.length
  if n ≤ 1 then init_state arr
  else
    let team := resolve_threads num_threads omp_default
    phase_loop_parallel n team sched n (init_state arr)

/-- Function `odd_even_sort_parallel`: the vector after the call. -/
def odd_even_sort_parallel (arr : List Int) (num_threads : Int) (omp_default : Nat)
    (sched : Schedule) : List Int :=
  (odd_even_sort_parallel_run arr num_threads omp_default sched).arr

/-- A schedule is valid for length `n` and a team of `team` workers when, in
every region, each index of the canonical loop is run exactly once and by a
worker of the team. -/
def ValidSchedule (n team : Nat) (sched : Schedule) : Prop :=
  ∀ phase : Nat,
    ((sched phase true).map Prod.snd).Perm (loop_indices n n 1) ∧
    ((sched phase false).map Prod.snd).Perm (loop_indices n n 0) ∧
    (∀ e ∈ sched phase true, e.1 < team) ∧ (∀ e ∈ sched phase false, e.1 < team)

/-- Static schedule with iterations dealt round-robin, each region's events
taking effect in decreasing index order. -/
def reversed_schedule (n team : Nat) : Schedule :=
  fun _ odd =>
    ((loop_indices n n (if odd then 1 else 0)).reverse).map (fun i => ((i / 2) % team, i))

/-! ## Bounds-checked variants

The same functions with every element access `arr[i]` made through
`Option`-returning indexing: an access outside the vector makes the whole
call return `none`. -/

/-- Loop body with checked accesses to `arr[i]` and `arr[i + 1]`. -/
def compare_swap_checked (st : SortState) (i : Nat) : Option SortState :=
  match st.arr[i]?, st.arr[i + 1]? with
  | some a, some b =>
    if a > b then
      some { st with
        arr := (st.arr.set i b).set (i + 1) a
        is_sorted := false
        swaps := st.swaps + 1
        comparisons := st.comparisons + 1 }
    else
      some { st with comparisons := st.comparisons + 1 }
  | _, _ => none

/-- Inner loop `for (int i = i0; i < n - 1; i += 2)` with the checked body. -/
def sub_pass_loop_checked (n : Nat) : Nat → Nat → SortState → Option SortState
  | 0, _, st => some st
  | fuel + 1, i, st =>
    if i + 1 < n then
      (compare_swap_checked st i).bind (sub_pass_loop_checked n fuel (i + 2))
    else some st

/-- Body of the phase loop of `odd_even_sort_sequential` with checked
accesses. -/
def phase_body_checked (n : Nat) (st : SortState) : Option SortState :=
  (sub_pass_loop_checked n n 1 { st with is_sorted := true }).bind fun st2 =>
    (sub_pass_loop_checked n n 0 st2).bind fun st3 =>
      some { st3 with phase := st3.phase + 1 }

/-- Phase loop of `odd_even_sort_sequential` with checked accesses. -/
def phase_loop_checked (n : Nat) : Nat → SortState → Option SortState
  | 0, st => some st
  | fuel + 1, st =>
    if st.phase < n ∧ st.is_sorted = false then
      (phase_body_checked n st).bind (phase_loop_checked n fuel)
    else some st

/-- Function `odd_even_sort_sequential` with checked accesses. -/
def odd_even_sort_sequential_checked (arr : List Int) : Option SortState :=
  let n := arr.length
  if n ≤ 1 then some (init_state arr)
  else phase_loop_checked n n (init_state arr)

/-- Loop body run by worker `e.1` at index `e.2` with checked accesses. -/
def region_step_checked (r : RegionState) (e : Nat × Nat) : Option RegionState :=
  (compare_swap_checked { r.st with is_sorted := r.priv e.1 } e.2).map fun st1 =>
    { st := { st1 with is_sorted := r.st.is_sorted }
      priv := Function.update r.priv e.1 st1.is_sorted }

/-- Events of a region applied in order with checked accesses. -/
def region_run_checked : Execution → RegionState → Option RegionState
  | [], r => some r
  | e :: ex, r => (region_step_checked r e).bind (region_run_checked ex)

/-- A `parallel for` region with checked accesses. -/
def parallel_region_checked (team : Nat) (ex : Execution) (st : SortState) :
    Option SortState :=
  (region_run_checked ex { st := st, priv := fun _ => true }).map fun r =>
    { r.st with is_sorted := st.is_sorted && (List.range team).all r.priv }

/-- Body of the phase loop of `odd_even_sort_parallel` with checked accesses. -/
def phase_body_parallel_checked (team : Nat) (sched : Schedule) (st : SortState) :
    Option SortState :=
  (parallel_region_checked team (sched st.phase true) { st with is_sorted := true }).bind
    fun st2 =>
      (parallel_region_checked team (sched st.phase false) st2).bind fun st3 =>
        some { st3 with phase := st3.phase + 1 }

/-- Phase loop of `odd_even_sort_parallel` with checked accesses. -/
def phase_loop_parallel_checked (n team : Nat) (sched : Schedule) :
    Nat → SortState → Option SortState
  | 0, st => some st
  | fuel + 1, st =>
    if st.phase < n ∧ st.is_sorted = false then
      (phase_body_parallel_checked team sched st).bind
        (phase_loop_parallel_checked n team sched fuel)
    else some st

/-- Function `odd_even_sort_parallel` with checked accesses. -/
def odd_even_sort_parallel_checked (arr : List Int) (num_threads : Int) (omp_default : Nat)
    (sched : Schedule) : Option SortState :=
  let n := arr.length
  if n ≤ 1 then some (init_state arr)
  else
    phase_loop_parallel_checked n (resolve_threads num_threads omp_default) sched n
      (init_state arr)

/-! ## File input and output

A file is the list of its characters.  The stream operators of the C++
library are modelled for the "C" locale: `operator<<` on an integer writes
its decimal digits, `operator>>` on an `int` skips white space, reads an
optional sign and the longest run of digits, and fails when there is no digit
or the value does not fit a 32-bit `int`.  The text written for the elapsed
time by `std::fixed << std::setprecision(6)` is a parameter. -/

/-- A file or a piece of it. -/
abbrev Text := List Char

/-- Smallest value of `int`. -/
def int_min : Int := -2147483648

/-- Largest value of `int`. -/
def int_max : Int := 2147483647

/-- Character of the decimal digit `d`. -/
def digit_char (d : Nat) : Char := Char.ofNat (48 + d)

/-- Decimal digits of `n`, most significant first, as written by
`operator<<`; the first argument bounds the number of digits. -/
def show_nat_digits : Nat → Nat → Text
  | 0, _ => []
  | fuel + 1, n =>
    if n < 10 then [digit_char n]
    else show_nat_digits fuel (n / 10) ++ [digit_char (n % 10)]

/-- Text written by `outfile << n` for an unsigned `n`. -/
def show_nat (n : Nat) : Text := show_nat_digits (n + 1) n

/-- Text written by `outfile << x` for a signed `x`. -/
def show_int (x : Int) : Text :=
  if x < 0 then '-' :: show_nat x.natAbs else show_nat x.natAbs

/-- White space of the "C" locale, skipped by `operator>>`. -/
def is_space (c : Char) : Bool :=
  c = ' ' || c = '\n' || c = '\t' || c = '\r' || c = '\x0b' || c = '\x0c'

/-- Decimal digit characters. -/
def is_digit (c : Char) : Bool := decide (48 ≤ c.toNat) && decide (c.toNat ≤ 57)

/-- Value of a decimal digit character. -/
def digit_value (c : Char) : Nat := c.toNat - 48

/-- Reads the longest run of digits, accumulating its value; returns the value
and the unread rest. -/
def read_digits : Text → Nat → Nat × Text
  | [], acc => (acc, [])
  | c :: cs, acc =>
    if is_digit c then read_digits cs (acc * 10 + digit_value c) else (acc, c :: cs)

/-- Digits of an `int` after the optional sign: fails when the next character
is not a digit or when the value is out of range. -/
def extract_digits (neg : Bool) (s : Text) : Option (Int × Text) :=
  match s with
  | [] => none
  | c :: _ =>
    if is_digit c then
      let r := read_digits s 0
      let x : Int := if neg then -(r.1 : Int) else (r.1 : Int)
      if int_min ≤ x ∧ x ≤ int_max then some (x, r.2) else none
    else none

/-- Formatted extraction `stream >> x` for `int x`: `none` when the stream
fails, otherwise the value read and the unread rest of the stream. -/
def extract_int (s : Text) : Option (Int × Text) :=
  match s.dropWhile is_space with
  | [] => none
  | c :: r =>
    if c = '-' then extract_digits true r
    else if c = '+' then extract_digits false r
    else extract_digits false (c :: r)

/-- The `std::runtime_error`s thrown by `read_data` and `write_results`. -/
inductive IOError where
  | cannot_open_input
  | invalid_size
  | not_enough_elements
  | cannot_open_output
deriving DecidableEq, Repr

deriving instance DecidableEq for Except

/-- Loop `for (int i = 0; i < size; ++i) if (!(infile >> data[i])) throw ...`
of `read_data`, by the number of elements still to read. -/
def read_elements : Nat → Text → Except IOError (List Int)
  | 0, _ => .ok []
  | k + 1, s =>
    match extract_int s with
    | none => .error .not_enough_elements
    | some (x, rest) =>
      match read_elements k rest with
      | .error e => .error e
      | .ok xs => .ok (x :: xs)

/-- Function `read_data` (the same in both programs); `none` is a file that
cannot be opened. -/
def read_data (file : Option Text) : Except IOError (List Int) :=
  match file with
  | none => .error .cannot_open_input
  | some text =>
    match extract_int text with
    | none => .error .invalid_size
    | some (size, rest) =>
      if size ≤ 0 then .error .invalid_size
      else read_elements size.toNat rest

/-- Loop of `write_results`:
`outfile << data[i] << (i == data.size() - 1 ? "" : "\n")`, from index `i`
over the elements not yet written. -/
def write_elements (size : Nat) : Nat → List Int → Text
  | _, [] => []
  | i, x :: xs =>
    show_int x ++ (if i = size - 1 then [] else ['\n']) ++ write_elements size (i + 1) xs

/-- Function `write_results` of `odd_even_seq.cpp`: the text of the output
file; `can_open` tells whether the file can be opened for writing. -/
def write_results (can_open : Bool) (data : List Int) (time_text : Text) :
    Except IOError Text :=
  if can_open then
    .ok (show_nat data.length ++ ['\n'] ++ write_elements data.length 0 data ++ ['\n']
      ++ time_text ++ ['\n'])
  else .error .cannot_open_output

/-- Function `write_results` of `odd_even_omp.cpp`, which adds the line of
`num_threads`. -/
def write_results_omp (can_open : Bool) (data : List Int) (time_text : Text)
    (num_threads : Int) : Except IOError Text :=
  if can_open then
    .ok (show_nat data.length ++ ['\n'] ++ write_elements data.length 0 data ++ ['\n']
      ++ time_text ++ ['\n'] ++ show_int num_threads ++ ['\n'])
  else .error .cannot_open_output

/-- Function `main` of `odd_even_seq.cpp` called with two file names: the exit
status and the text of the output file when it is written. -/
def main_sequential (input : Option Text) (can_open : Bool) (time_text : Text) :
    Nat × Option Text :=
  match read_data input with
  | .error _ => (1, none)
  | .ok data =>
    match write_results can_open (odd_even_sort_sequential data) time_text with
    | .error _ => (1, none)
    | .ok out => (0, some out)

/-! ## Data generator

The program `generate_data.cpp`.  The values returned by `distrib(gen)` are a
parameter: `draw min_val max_val i` is the value that the distribution over
`[min_val, max_val]` returns in iteration `i`. -/

/-- Function `std::stoi`: `none` when it throws (`std::invalid_argument` when
no number can be read, `std::out_of_range` when it does not fit an `int`).
It reads like `operator>>`: white space, an optional sign, digits; what
follows the digits is ignored. -/
def stoi (s : Text) : Option Int :=
  (extract_int s).map Prod.fst

/-- The exceptions thrown inside `generate_data`. -/
inductive GenError where
  | size_not_positive
  | cannot_open_output
deriving DecidableEq, Repr

/-- Loop `for (int i = 0; i < size; ++i)
outfile << distrib(gen) << (i == size - 1 ? "" : "\n")` of `generate_data`;
the first argument bounds the number of iterations. -/
def generate_loop (size : Int) (distrib : Nat → Int) : Nat → Nat → Text
  | 0, _ => []
  | fuel + 1, i =>
    if (i : Int) < size then
      show_int (distrib i) ++ (if (i : Int) = size - 1 then [] else ['\n'])
        ++ generate_loop size distrib fuel (i + 1)
    else []

/-- Statement `std::ofstream outfile(filename)`: when the file can be opened
it is created, or truncated, to the empty text; `none` is a stream that
failed to open. -/
def open_output (can_open : Bool) : Option Text :=
  if can_open then some [] else none

/-- Function `generate_data`: the exception thrown, if any, and the output
file on disk after the call (`none`: no such file).  `file` is the output
file on disk before the call; it changes only once the stream is open. -/
def generate_data (can_open : Bool) (file : Option Text) (draw : Int → Int → Nat → Int)
    (size min_val max_val : Int) : Option GenError × Option Text :=
  if size ≤ 0 then (some .size_not_positive, file)
  else
    match open_output can_open with
    | none => (some .cannot_open_output, file)
    | some opened =>
      (none, some (opened ++ show_int size ++ ['\n']
        ++ generate_loop size (draw min_val max_val) size.toNat 0 ++ ['\n']))

/-- Argument `argv[k]` when present (`argc >= k + 1`), else the default value;
`none` when `std::stoi` throws. -/
def optional_argument (arg : Option Text) (default : Int) : Option Int :=
  match arg with
  | none => some default
  | some t => stoi t

/-- Function `main` of `generate_data.cpp`; `args` is `argv[1], argv[2], ...`
and `file` the output file on disk before the run.  Returns the exit status
and the output file on disk after the run. -/
def main_generate (args : List Text) (can_open : Bool) (file : Option Text)
    (draw : Int → Int → Nat → Int) : Nat × Option Text :=
  match args with
  | _ :: size_arg :: rest =>
    match stoi size_arg with
    | none => (1, file)
    | some size =>
      match optional_argument rest[0]? 0 with
      | none => (1, file)
      | some min_val =>
        match optional_argument rest[1]? 10000 with
        | none => (1, file)
        | some max_val =>
          if min_val > max_val then (1, file)
          else
            match generate_data can_open file draw size min_val max_val with
            | (some _, after) => (1, after)
            | (none, after) => (0, after)
  | _ => (1, file)

/-! ## Vocabulary of the claims about files -/

/-- Lines of a text: the pieces ended by a newline, and a last piece without
one when it is not empty. -/
def split_lines : Text → List Text
  | [] => []
  | c :: cs =>
    if c = '\n' then [] :: split_lines cs
    else
      match split_lines cs with
      | [] => [[c]]
      | l :: ls => (c :: l) :: ls

/-- A token stream: each token with the white space written before it. -/
abbrev TokenStream := List (Text × Text)

/-- Text of a token stream. -/
def render_tokens : TokenStream → Text
  | [] => []
  | (sep, tok) :: rest => sep ++ tok ++ render_tokens rest

/-- Tokens are not empty and hold no white space; what separates two tokens is
white space and not empty; before the first token any white space may stand. -/
def well_separated (first : Bool) : TokenStream → Bool
  | [] => true
  | (sep, tok) :: rest =>
    sep.all is_space && (first || !sep.isEmpty)
      && !tok.isEmpty && tok.all (fun c => !is_space c)
      && well_separated false rest

/-- A token parses as an integer when extraction reads all of it. -/
def token_int (tok : Text) : Option Int :=
  match extract_int tok with
  | some (v, []) => some v
  | _ => none

/-- Integers that successive extractions read from a text without white
space, and whether they read it to its end (`false`: a remainder is left
from which no integer can be extracted).  The first argument bounds the
number of extractions. -/
def token_ints : Nat → Text → List Int × Bool
  | 0, t => ([], t.isEmpty)
  | fuel + 1, t =>
    match t with
    | [] => ([], true)
    | _ :: _ =>
      match extract_int t with
      | none => ([], false)
      | some (v, r) => (v :: (token_ints fuel r).1, (token_ints fuel r).2)

/-- Integers of a token stream in reading order: those of each token, up to
and including the first token that is not read to its end. -/
def stream_ints : TokenStream → List Int
  | [] => []
  | (_, tok) :: rest =>
    if (token_ints tok.length tok).2 then (token_ints tok.length tok).1 ++ stream_ints rest
    else (token_ints tok.length tok).1

/-- A vector of `int` as the programs hold it: every element is an `int` and
the length fits the `int` that `read_data` allocates it with. -/
def is_int_vector (d : List Int) : Prop :=
  (d.length : Int) ≤ int_max ∧ ∀ x ∈ d, int_min ≤ x ∧ x ≤ int_max

/-! ## Auxiliary notions used in the proofs -/

/-- Effect of `compare_swap` on the vector alone. -/
def cas (l : List Int) (i : Nat) : List Int :=
  if l.getD i 0 > l.getD (i + 1) 0 then
    (l.set i (l.getD (i + 1) 0)).set (i + 1) (l.getD i 0)
  else l

/-- Number of elements greater than `v` at positions `x, x + 1, ...`. -/
def above (v : Int) (x : Nat) (l : List Int) : Nat :=
  (l.drop x).countP (fun y => decide (v < y))

/-- Vector after the first `t` sub-passes of a sort call on a vector of
length `n`; sub-passes alternate, starting with the odd one. -/
def run_passes (n : Nat) : Nat → List Int → List Int
  | 0, l => l
  | t + 1, l => (loop_indices n n ((t + 1) % 2)).foldl cas (run_passes n t l)

/-- Integers still to be read when the rest `r` of a token and the tokens
`rest` lie ahead. -/
def pending_ints (r : Text) (rest : TokenStream) : List Int :=
  if (token_ints r.length r).2 then (token_ints r.length r).1 ++ stream_ints rest
  else (token_ints r.length r).1

/-- State `st` with the flag replaced by `b`. -/
def set_flag (st : SortState) (b : Bool) : SortState :=
  { st with is_sorted := b }

/-! ## Compare-and-swap on the vector -/

theorem cas_append (pre post : List Int) (a b : Int) :
    cas (pre ++ a :: b :: post) pre.length
      = pre ++ (if a > b then b :: a :: post else a :: b :: post) := by
  unfold cas
  have h1 : (pre ++ a :: b :: post).getD pre.length 0 = a := by
    rw [List.getD_eq_getElem?_getD, List.getElem?_append_right (le_refl _)]
    simp
  have h2 : (pre ++ a :: b :: post).getD (pre.length + 1) 0 = b := by
    rw [List.getD_eq_getElem?_getD, List.getElem?_append_right (Nat.le_succ _)]
    simp
  rw [h1, h2]
  split
  · simp [List.set_append_right]
  · rfl

theorem split_at (l : List Int) (i : Nat) (h : i + 1 < l.length) :
    ∃ pre a b post, l = pre ++ a :: b :: post ∧ pre.length = i := by
  refine ⟨l.take i, l[i], l[i + 1], l.drop (i + 2), ?_, ?_⟩
  · have e1 : l = l.take i ++ l.drop i := (List.take_append_drop i l).symm
    have e2 : l.drop i = l[i] :: l.drop (i + 1) := List.drop_eq_getElem_cons (by omega)
    have e3 : l.drop (i + 1) = l[i + 1] :: l.drop (i + 2) := List.drop_eq_getElem_cons (by omega)
    rw [← e3, ← e2, ← e1]
  · simp; omega

/-! ## Counting elements above a threshold -/

theorem above_append_le (v : Int) (x : Nat) (pre r : List Int) (h : x ≤ pre.length) :
    above v x (pre ++ r)
      = (pre.drop x).countP (fun y => decide (v < y)) + r.countP (fun y => decide (v < y)) := by
  unfold above
  rw [List.drop_append_of_le_length h, List.countP_append]

theorem above_append_ge (v : Int) (k : Nat) (pre r : List Int) :
    above v (pre.length + k) (pre ++ r) = above v k r := by
  unfold above
  rw [List.drop_append]

theorem above_cas_of_ne (v : Int) (l : List Int) (i x : Nat) (hi : i + 1 < l.length)
    (hx : x ≠ i + 1) : above v x (cas l i) = above v x l := by
  obtain ⟨pre, a, b, post, rfl, rfl⟩ := split_at l i hi
  rw [cas_append]
  split
  · rcases Nat.lt_or_ge x (pre.length + 1) with h | h
    · rw [above_append_le _ _ _ _ (by omega), above_append_le _ _ _ _ (by omega)]
      simp only [List.countP_cons]
      omega
    · obtain ⟨k, rfl⟩ : ∃ k, x = pre.length + (k + 2) := ⟨x - pre.length - 2, by omega⟩
      rw [above_append_ge, above_append_ge]
      simp [above]
  · rfl

theorem above_cas_succ (v : Int) (pre post : List Int) (a b : Int) :
    above v (pre.length + 1) (cas (pre ++ a :: b :: post) pre.length)
      = above v 2 (a :: b :: post) + (if v < a ∨ v < b then 1 else 0) := by
  rw [cas_append]
  split
  · rename_i hab
    rw [above_append_ge]
    simp only [above, List.drop_succ_cons, List.drop_zero, List.countP_cons]
    have : b < a := hab
    by_cases ha : v < a <;> by_cases hb : v < b <;> simp [ha, hb]
    omega
  · rename_i hab
    rw [above_append_ge]
    simp only [above, List.drop_succ_cons, List.drop_zero, List.countP_cons]
    have : a ≤ b := not_lt.mp hab
    by_cases ha : v < a <;> by_cases hb : v < b <;> simp [ha, hb]
    omega

theorem above_cas_mono (v : Int) (l : List Int) (i x : Nat) (hi : i + 1 < l.length) :
    above v x l ≤ above v x (cas l i) := by
  by_cases hx : x = i + 1
  · subst hx
    obtain ⟨pre, a, b, post, rfl, rfl⟩ := split_at l i hi
    rw [above_cas_succ, above_append_ge]
    simp only [above, List.drop_succ_cons, List.drop_zero, List.countP_cons]
    by_cases ha : v < a <;> by_cases hb : v < b <;> simp [ha, hb]
  · rw [above_cas_of_ne v l i x hi hx]

theorem above_cas_key (v : Int) (l : List Int) (i : Nat) (hi : i + 1 < l.length) :
    min (above v i l) (above v (i + 2) l + 1) ≤ above v (i + 1) (cas l i) := by
  obtain ⟨pre, a, b, post, rfl, rfl⟩ := split_at l i hi
  rw [above_cas_succ]
  have h0 : above v pre.length (pre ++ a :: b :: post) = above v 0 (a :: b :: post) :=
    above_append_ge v 0 pre _
  rw [h0, above_append_ge]
  simp only [above, List.drop_succ_cons, List.drop_zero, List.countP_cons]
  by_cases ha : v < a <;> by_cases hb : v < b <;> simp [ha, hb]

/-! ## A sequence of compare-and-swaps -/

theorem cas_length (l : List Int) (i : Nat) : (cas l i).length = l.length := by
  unfold cas
  split <;> simp

theorem foldl_cas_length (is : List Nat) (l : List Int) :
    (is.foldl cas l).length = l.length := by
  induction is generalizing l with
  | nil => rfl
  | cons i is ih => rw [List.foldl_cons, ih, cas_length]

theorem above_foldl_mono (v : Int) (x : Nat) (is : List Nat) (l : List Int)
    (hb : ∀ i ∈ is, i + 1 < l.length) : above v x l ≤ above v x (is.foldl cas l) := by
  induction is generalizing l with
  | nil => exact le_refl _
  | cons i is ih =>
    rw [List.foldl_cons]
    have h1 := above_cas_mono v l i x (hb i (List.mem_cons_self _ _))
    have h2 := ih (cas l i) (fun j hj => by
      rw [cas_length]; exact hb j (List.mem_cons_of_mem _ hj))
    exact le_trans h1 h2

theorem above_foldl_of_ne (v : Int) (x : Nat) (is : List Nat) (l : List Int)
    (hb : ∀ i ∈ is, i + 1 < l.length) (hx : ∀ i ∈ is, x ≠ i + 1) :
    above v x (is.foldl cas l) = above v x l := by
  induction is generalizing l with
  | nil => rfl
  | cons i is ih =>
    rw [List.foldl_cons, ih (cas l i) (fun j hj => by
      rw [cas_length]; exact hb j (List.mem_cons_of_mem _ hj))
      (fun j hj => hx j (List.mem_cons_of_mem _ hj))]
    exact above_cas_of_ne v l i x (hb i (List.mem_cons_self _ _)) (hx i (List.mem_cons_self _ _))

theorem above_foldl_key (v : Int) (i : Nat) (is : List Nat) (l : List Int)
    (hb : ∀ j ∈ is, j + 1 < l.length) (hi : i ∈ is)
    (h1 : ∀ j ∈ is, i ≠ j + 1) (h2 : ∀ j ∈ is, i + 2 ≠ j + 1) :
    min (above v i l) (above v (i + 2) l + 1) ≤ above v (i + 1) (is.foldl cas l) := by
  obtain ⟨s, t, rfl⟩ := List.append_of_mem hi
  rw [List.foldl_append, List.foldl_cons]
  have hs : ∀ j ∈ s, j + 1 < l.length := fun j hj => hb j (by simp [hj])
  have ht : ∀ j ∈ t, j + 1 < (cas (s.foldl cas l) i).length := fun j hj => by
    rw [cas_length, foldl_cas_length]; exact hb j (by simp [hj])
  have e1 : above v i (s.foldl cas l) = above v i l :=
    above_foldl_of_ne v i s l hs (fun j hj => h1 j (by simp [hj]))
  have e2 : above v (i + 2) (s.foldl cas l) = above v (i + 2) l :=
    above_foldl_of_ne v (i + 2) s l hs (fun j hj => h2 j (by simp [hj]))
  have k := above_cas_key v (s.foldl cas l) i (by
    rw [foldl_cas_length]; exact hb i (by simp))
  rw [e1, e2] at k
  exact le_trans k (above_foldl_mono v (i + 1) t _ ht)

theorem above_zero_le (v : Int) (x : Nat) (l : List Int) :
    above v 0 l ≤ above v x l + x := by
  unfold above
  rw [List.drop_zero]
  conv_lhs => rw [← List.take_append_drop x l, List.countP_append]
  have h1 : (l.take x).countP (fun y => decide (v < y)) ≤ (l.take x).length :=
    List.countP_le_length _
  have h2 : (l.take x).length ≤ x := by simp
  omega

/-! ## Indices of a sub-pass -/

theorem mem_loop_indices (n : Nat) (fuel i j : Nat) :
    j ∈ loop_indices n fuel i ↔ ∃ k, k < fuel ∧ j = i + 2 * k ∧ j + 1 < n := by
  induction fuel generalizing i with
  | zero => simp [loop_indices]
  | succ fuel ih =>
    unfold loop_indices
    split
    · rw [List.mem_cons, ih]
      constructor
      · rintro (rfl | ⟨k, hk, rfl, hj⟩)
        · exact ⟨0, by omega, by omega, by assumption⟩
        · exact ⟨k + 1, by omega, by omega, hj⟩
      · rintro ⟨k, hk, rfl, hj⟩
        rcases k with _ | k
        · left; rfl
        · right; exact ⟨k, by omega, by omega, hj⟩
    · simp only [List.not_mem_nil, false_iff]
      rintro ⟨k, hk, rfl, hj⟩
      omega

theorem mem_pass_indices (n s j : Nat) :
    j ∈ loop_indices n n s ↔ s ≤ j ∧ j % 2 = s % 2 ∧ j + 1 < n := by
  rw [mem_loop_indices]
  constructor
  · rintro ⟨k, hk, rfl, hj⟩
    exact ⟨by omega, by omega, hj⟩
  · rintro ⟨h1, h2, h3⟩
    exact ⟨(j - s) / 2, by omega, by omega, h3⟩

/-! ## Progress of the sub-passes -/

theorem run_passes_length (n t : Nat) (l : List Int) : (run_passes n t l).length = l.length := by
  induction t with
  | zero => rfl
  | succ t ih => rw [run_passes, foldl_cas_length, ih]

theorem pass_indices_bound (n s : Nat) (l : List Int) (hn : l.length = n) :
    ∀ i ∈ loop_indices n n s, i + 1 < l.length := by
  intro i hi
  rw [mem_pass_indices] at hi
  omega

theorem above_zero_run_passes (v : Int) (n t : Nat) (l : List Int) (hn : l.length = n) :
    above v 0 (run_passes n t l) = above v 0 l := by
  induction t with
  | zero => rfl
  | succ t ih =>
    rw [run_passes, above_foldl_of_ne v 0 _ _
      (pass_indices_bound n _ _ (by rw [run_passes_length, hn])) (fun i _ => by omega), ih]

/-- After `t` sub-passes, for every threshold `v` with `k` elements above it,
at least `j` of them sit at positions `x` and later whenever `x + 2 j ≤ k + t`
(or one more, when `x` has the parity of the sub-pass that comes next). -/
theorem above_run_passes (v : Int) (n : Nat) (l : List Int) (hn : l.length = n) (t : Nat) :
    ∀ j x : Nat, j ≤ above v 0 l → x + j ≤ n →
      (x + 2 * j ≤ above v 0 l + t ∨
        (x + 2 * j = above v 0 l + t + 1 ∧ x % 2 = (t + 1) % 2)) →
      j ≤ above v x (run_passes n t l) := by
  induction t with
  | zero =>
    intro j x _ _ h
    have h0 := above_zero_le v x l
    simp only [run_passes]
    omega
  | succ t ih =>
    intro j x hj hx h
    have hlen : (run_passes n t l).length = n := by rw [run_passes_length, hn]
    have hb := pass_indices_bound n ((t + 1) % 2) (run_passes n t l) hlen
    rw [run_passes]
    rcases Nat.eq_zero_or_pos j with rfl | hjpos
    · exact Nat.zero_le _
    by_cases hold : x + 2 * j ≤ above v 0 l + t ∨
        (x + 2 * j = above v 0 l + t + 1 ∧ x % 2 = (t + 1) % 2)
    · exact le_trans (ih j x hj hx hold) (above_foldl_mono v x _ _ hb)
    · have hpar : x % 2 ≠ (t + 1) % 2 := by omega
      rcases Nat.eq_zero_or_pos x with rfl | hxpos
      · rw [above_foldl_of_ne v 0 _ _ hb (fun i _ => by omega),
          above_zero_run_passes v n t l hn]
        exact hj
      · obtain ⟨i, rfl⟩ : ∃ i, x = i + 1 := ⟨x - 1, by omega⟩
        have hi : i ∈ loop_indices n n ((t + 1) % 2) := by
          rw [mem_pass_indices]
          omega
        have key := above_foldl_key v i _ (run_passes n t l) hb hi
          (fun j' hj' => by rw [mem_pass_indices] at hj'; omega)
          (fun j' hj' => by rw [mem_pass_indices] at hj'; omega)
        have a1 := ih j i hj (by omega) (by omega)
        have a2 := ih (j - 1) (i + 2) (by omega) (by omega) (by omega)
        have : j ≤ min (above v i (run_passes n t l))
            (above v (i + 2) (run_passes n t l) + 1) := by
          rw [le_min_iff]
          omega
        exact le_trans this key

theorem above_le_length (v : Int) (x : Nat) (l : List Int) : above v x l ≤ l.length - x := by
  unfold above
  have := List.countP_le_length (fun y => decide (v < y)) (l := l.drop x)
  simpa using this

/-- When all elements above `v` occupy the last positions, the right
neighbour of an element above `v` is above `v` too. -/
theorem above_step (v : Int) (r : List Int)
    (h : above v 0 r ≤ above v (r.length - above v 0 r) r)
    (p : Nat) (hp : p + 1 < r.length) (hv : v < r[p]) : v < r[p + 1] := by
  generalize hk : above v 0 r = k at h
  have hkn : k ≤ r.length := by
    have := above_le_length v 0 r
    omega
  have hup := above_le_length v (r.length - k) r
  have hlen : (r.drop (r.length - k)).length = k := by
    rw [List.length_drop]
    omega
  have hall : (r.drop (r.length - k)).countP (fun y => decide (v < y))
      = (r.drop (r.length - k)).length := by
    unfold above at h hup
    omega
  rw [List.countP_eq_length] at hall
  have hzero : (r.take (r.length - k)).countP (fun y => decide (v < y)) = 0 := by
    have e : above v 0 r
        = (r.take (r.length - k)).countP (fun y => decide (v < y))
          + (r.drop (r.length - k)).countP (fun y => decide (v < y)) := by
      unfold above
      rw [List.drop_zero, ← List.countP_append, List.take_append_drop]
    unfold above at h hk
    unfold above at e
    omega
  rw [List.countP_eq_zero] at hzero
  have hp1 : r.length - k ≤ p := by
    by_contra hc
    have hmem : r[p] ∈ r.take (r.length - k) := by
      rw [List.mem_take_iff_getElem]
      exact ⟨p, by omega, rfl⟩
    have := hzero _ hmem
    simp at this
    omega
  have hmem2 : r[p + 1] ∈ r.drop (r.length - k) := by
    rw [List.mem_drop_iff_getElem]
    exact ⟨p + 1 - (r.length - k), by omega, by congr 1; omega⟩
  simpa using hall _ hmem2

/-- A vector in which, for every threshold, all elements above the threshold
occupy the last positions is in non-decreasing order. -/
theorem chain_of_above (r : List Int)
    (h : ∀ v : Int, above v 0 r ≤ above v (r.length - above v 0 r) r) :
    List.Chain' (fun a b => a ≤ b) r := by
  rw [List.chain'_iff_get]
  intro p hp
  simp only [List.get_eq_getElem]
  by_contra hlt
  have hgt : r[p + 1] < r[p] := not_le.mp hlt
  exact lt_irrefl _ (above_step _ r (h _) p (by omega) hgt)

/-- Odd-even transposition sort: `n` sub-passes put a vector of length `n` in
non-decreasing order. -/
theorem run_passes_chain (n t : Nat) (l : List Int) (hn : l.length = n) (ht : n ≤ t) :
    List.Chain' (fun a b => a ≤ b) (run_passes n t l) := by
  apply chain_of_above
  intro v
  rw [above_zero_run_passes v n t l hn, run_passes_length, hn]
  have hk : above v 0 l ≤ n := by
    have := above_le_length v 0 l
    omega
  exact above_run_passes v n l hn t (above v 0 l) (n - above v 0 l) (le_refl _) (by omega)
    (Or.inl (by omega))

/-! ## Compare-and-swaps on disjoint pairs commute -/

theorem getD_set_of_ne (l : List Int) (i j : Nat) (a : Int) (h : i ≠ j) :
    (l.set i a).getD j 0 = l.getD j 0 := by
  rw [List.getD_eq_getElem?_getD, List.getD_eq_getElem?_getD, List.getElem?_set_ne h]

theorem cas_getD_of_ne (l : List Int) (i j : Nat) (h1 : j ≠ i) (h2 : j ≠ i + 1) :
    (cas l i).getD j 0 = l.getD j 0 := by
  unfold cas
  split
  · rw [getD_set_of_ne _ _ _ _ (Ne.symm h2), getD_set_of_ne _ _ _ _ (Ne.symm h1)]
  · rfl

theorem cas_comm (l : List Int) (i j : Nat) (h : i + 2 ≤ j) :
    cas (cas l i) j = cas (cas l j) i := by
  have a1 := cas_getD_of_ne l i j (by omega) (by omega)
  have a2 := cas_getD_of_ne l i (j + 1) (by omega) (by omega)
  have b1 := cas_getD_of_ne l j i (by omega) (by omega)
  have b2 := cas_getD_of_ne l j (i + 1) (by omega) (by omega)
  rw [cas, a1, a2]
  conv_rhs => rw [cas, b1, b2]
  by_cases hi : l.getD i 0 > l.getD (i + 1) 0 <;> by_cases hj : l.getD j 0 > l.getD (j + 1) 0
  · simp only [cas, hi, hj, if_true]
    rw [List.set_comm _ _ _ (show i + 1 ≠ j by omega), List.set_comm _ _ _ (show i ≠ j by omega),
      List.set_comm _ _ _ (show i + 1 ≠ j + 1 by omega),
      List.set_comm _ _ _ (show i ≠ j + 1 by omega)]
  · simp only [cas, hi, hj, if_true, if_false]
  · simp only [cas, hi, hj, if_true, if_false]
  · simp only [cas, hi, hj, if_false]

theorem compare_swap_eq (st : SortState) (i : Nat) :
    compare_swap st i =
      { arr := cas st.arr i
        is_sorted := st.is_sorted && decide (st.arr.getD i 0 ≤ st.arr.getD (i + 1) 0)
        phase := st.phase
        swaps := st.swaps + (if st.arr.getD i 0 > st.arr.getD (i + 1) 0 then 1 else 0)
        comparisons := st.comparisons + 1 } := by
  unfold compare_swap cas
  by_cases h : st.arr.getD i 0 > st.arr.getD (i + 1) 0
  · have h2 : decide (st.arr.getD i 0 ≤ st.arr.getD (i + 1) 0) = false :=
      decide_eq_false (not_le.mpr h)
    rw [if_pos h, if_pos h, if_pos h, h2, Bool.and_false]
  · have h2 : decide (st.arr.getD i 0 ≤ st.arr.getD (i + 1) 0) = true :=
      decide_eq_true (not_lt.mp h)
    rw [if_neg h, if_neg h, if_neg h, h2, Bool.and_true]
    rfl

theorem compare_swap_comm_of_le (z : SortState) (i j : Nat) (h : i + 2 ≤ j) :
    compare_swap (compare_swap z i) j = compare_swap (compare_swap z j) i := by
  have a1 := cas_getD_of_ne z.arr i j (by omega) (by omega)
  have a2 := cas_getD_of_ne z.arr i (j + 1) (by omega) (by omega)
  have b1 := cas_getD_of_ne z.arr j i (by omega) (by omega)
  have b2 := cas_getD_of_ne z.arr j (i + 1) (by omega) (by omega)
  rw [compare_swap_eq (compare_swap z i) j, compare_swap_eq (compare_swap z j) i,
    compare_swap_eq z i, compare_swap_eq z j]
  simp only [a1, a2, b1, b2, cas_comm z.arr i j h, SortState.mk.injEq, true_and]
  refine ⟨?_, ?_⟩
  · simp only [Bool.and_assoc]
    congr 1
    exact Bool.and_comm _ _
  · exact ⟨Nat.add_right_comm _ _ _, trivial⟩

theorem compare_swap_comm (z : SortState) (i j : Nat) (h : i % 2 = j % 2) :
    compare_swap (compare_swap z i) j = compare_swap (compare_swap z j) i := by
  rcases Nat.lt_trichotomy i j with h1 | h1 | h1
  · exact compare_swap_comm_of_le z i j (by omega)
  · rw [h1]
  · exact (compare_swap_comm_of_le z j i (by omega)).symm

/-- Running the compare-and-swaps of a sub-pass in any order gives the same
state as the ascending order. -/
theorem foldl_compare_swap_perm (n s : Nat) (is : List Nat) (st : SortState)
    (hp : is.Perm (loop_indices n n s)) :
    is.foldl compare_swap st = (loop_indices n n s).foldl compare_swap st := by
  apply List.Perm.foldl_eq' hp
  intro x hx y hy z
  have hx2 := (mem_pass_indices n s x).mp (hp.subset hx)
  have hy2 := (mem_pass_indices n s y).mp (hp.subset hy)
  exact compare_swap_comm z x y (by omega)

/-! ## The inner loop as a sequence of compare-and-swaps -/

theorem sub_pass_loop_eq_foldl (n fuel i : Nat) (st : SortState) :
    sub_pass_loop n fuel i st = (loop_indices n fuel i).foldl compare_swap st := by
  induction fuel generalizing i st with
  | zero => rfl
  | succ fuel ih =>
    unfold sub_pass_loop loop_indices
    split
    · rw [List.foldl_cons, ih]
    · rfl

/-- The inner loop stops on its own test: more iterations allowed change
nothing. -/
theorem sub_pass_loop_fuel (n fuel i extra : Nat) (st : SortState) (h : n ≤ fuel + i) :
    sub_pass_loop n (fuel + extra) i st = sub_pass_loop n fuel i st := by
  induction fuel generalizing i st with
  | zero =>
    rcases extra with _ | extra
    · rfl
    · rw [Nat.zero_add]
      unfold sub_pass_loop
      rw [if_neg (by omega)]
  | succ fuel ih =>
    rw [Nat.add_right_comm]
    unfold sub_pass_loop
    split
    · exact ih (i + 2) _ (by omega)
    · rfl

theorem foldl_compare_swap_arr (is : List Nat) (st : SortState) :
    (is.foldl compare_swap st).arr = is.foldl cas st.arr := by
  induction is generalizing st with
  | nil => rfl
  | cons i is ih => rw [List.foldl_cons, List.foldl_cons, ih, compare_swap_eq]

theorem foldl_compare_swap_phase (is : List Nat) (st : SortState) :
    (is.foldl compare_swap st).phase = st.phase := by
  induction is generalizing st with
  | nil => rfl
  | cons i is ih => rw [List.foldl_cons, ih, compare_swap_eq]

theorem foldl_compare_swap_comparisons (is : List Nat) (st : SortState) :
    (is.foldl compare_swap st).comparisons = st.comparisons + is.length := by
  induction is generalizing st with
  | nil => rfl
  | cons i is ih =>
    rw [List.foldl_cons, ih, compare_swap_eq, List.length_cons]
    simp only
    omega

/-- When no compared pair is out of order, a sequence of compare-and-swaps
only counts its comparisons. -/
theorem foldl_compare_swap_of_le (is : List Nat) (st : SortState)
    (h : ∀ i ∈ is, st.arr.getD i 0 ≤ st.arr.getD (i + 1) 0) :
    is.foldl compare_swap st = { st with comparisons := st.comparisons + is.length } := by
  induction is generalizing st with
  | nil => rfl
  | cons i is ih =>
    have hi : ¬ st.arr.getD i 0 > st.arr.getD (i + 1) 0 :=
      not_lt.mpr (h i (List.mem_cons_self _ _))
    have e : compare_swap st i = { st with comparisons := st.comparisons + 1 } := by
      unfold compare_swap
      rw [if_neg hi]
    rw [List.foldl_cons, e]
    have := ih { st with comparisons := st.comparisons + 1 }
      (fun j hj => h j (List.mem_cons_of_mem _ hj))
    rw [this, List.length_cons]
    simp only [SortState.mk.injEq, true_and]
    omega

/-- When the flag is still set after a sequence of compare-and-swaps, it was
set before and no compared pair was out of order. -/
theorem foldl_compare_swap_flag (is : List Nat) (st : SortState)
    (h : (is.foldl compare_swap st).is_sorted = true) :
    st.is_sorted = true ∧ ∀ i ∈ is, st.arr.getD i 0 ≤ st.arr.getD (i + 1) 0 := by
  induction is generalizing st with
  | nil => exact ⟨h, fun i hi => absurd hi (List.not_mem_nil _)⟩
  | cons i is ih =>
    rw [List.foldl_cons] at h
    obtain ⟨h1, h2⟩ := ih _ h
    rw [compare_swap_eq] at h1 h2
    simp only [Bool.and_eq_true, decide_eq_true_eq] at h1
    have e : cas st.arr i = st.arr := by
      unfold cas
      rw [if_neg (not_lt.mpr h1.2)]
    simp only [e] at h2
    refine ⟨h1.1, fun j hj => ?_⟩
    rcases List.mem_cons.mp hj with rfl | hj
    · exact h1.2
    · exact h2 j hj

/-! ## Permutation -/

theorem cas_perm (l : List Int) (i : Nat) (h : i + 1 < l.length) : (cas l i).Perm l := by
  obtain ⟨pre, a, b, post, rfl, rfl⟩ := split_at l i h
  rw [cas_append]
  split
  · exact List.Perm.append_left _ (List.Perm.swap _ _ _)
  · exact List.Perm.refl _

theorem foldl_cas_perm (is : List Nat) (l : List Int) (h : ∀ i ∈ is, i + 1 < l.length) :
    (is.foldl cas l).Perm l := by
  induction is generalizing l with
  | nil => exact List.Perm.refl _
  | cons i is ih =>
    rw [List.foldl_cons]
    exact (ih _ (fun j hj => by
      rw [cas_length]; exact h j (List.mem_cons_of_mem _ hj))).trans
      (cas_perm l i (h i (List.mem_cons_self _ _)))

/-! ## Adjacent pairs in order -/

theorem chain_iff_getD (l : List Int) :
    List.Chain' (fun a b => a ≤ b) l ↔ ∀ i, i + 1 < l.length → l.getD i 0 ≤ l.getD (i + 1) 0 := by
  rw [List.chain'_iff_get]
  constructor
  · intro h i hi
    have := h i (by omega)
    simp only [List.get_eq_getElem] at this
    rw [List.getD_eq_getElem _ _ (by omega), List.getD_eq_getElem _ _ hi]
    exact this
  · intro h i hi
    have := h i (by omega)
    rw [List.getD_eq_getElem _ _ (by omega), List.getD_eq_getElem _ _ (by omega)] at this
    simpa only [List.get_eq_getElem] using this

theorem sorted_of_chain (l : List Int) (h : List.Chain' (fun a b => a ≤ b) l) :
    List.Sorted (fun a b => a ≤ b) l :=
  List.chain'_iff_pairwise.mp h

/-! ## The flag through a sequence of compare-and-swaps -/

theorem compare_swap_set_flag (st : SortState) (b : Bool) (i : Nat) :
    compare_swap (set_flag st b) i
      = set_flag (compare_swap (set_flag st true) i)
          (b && (compare_swap (set_flag st true) i).is_sorted) := by
  rw [compare_swap_eq, compare_swap_eq]
  simp [set_flag]

theorem set_flag_set_flag (st : SortState) (a b : Bool) :
    set_flag (set_flag st a) b = set_flag st b := rfl

theorem set_flag_self (st : SortState) : set_flag st st.is_sorted = st := rfl

/-- The flag after a sequence of compare-and-swaps is the flag before
combined by `&&` with the flag the sequence yields when started from `true`;
nothing else depends on the flag before. -/
theorem foldl_compare_swap_set_flag (is : List Nat) (st : SortState) (b : Bool) :
    is.foldl compare_swap (set_flag st b)
      = set_flag (is.foldl compare_swap (set_flag st true))
          (b && (is.foldl compare_swap (set_flag st true)).is_sorted) := by
  induction is generalizing st b with
  | nil => simp [set_flag]
  | cons i is ih =>
    rw [List.foldl_cons, List.foldl_cons, compare_swap_set_flag st b i]
    generalize compare_swap (set_flag st true) i = x
    rw [ih x (b && x.is_sorted)]
    have hx : is.foldl compare_swap x
        = set_flag (is.foldl compare_swap (set_flag x true))
            (x.is_sorted && (is.foldl compare_swap (set_flag x true)).is_sorted) := by
      have := ih x x.is_sorted
      rw [set_flag_self] at this
      exact this
    rw [hx]
    simp [set_flag, Bool.and_assoc]

/-! ## A parallel region -/

theorem all_update_and (team w : Nat) (priv : Nat → Bool) (c : Bool) (hw : w < team) :
    (List.range team).all (Function.update priv w (priv w && c))
      = ((List.range team).all priv && c) := by
  cases c with
  | true => simp
  | false =>
    simp only [Bool.and_false, List.all_eq_false]
    exact ⟨w, List.mem_range.mpr hw, by simp⟩

theorem region_step_st (r : RegionState) (e : Nat × Nat) :
    (region_step r e).st = set_flag (compare_swap (set_flag r.st true) e.2) r.st.is_sorted := by
  unfold region_step
  simp only
  rw [show ({ r.st with is_sorted := r.priv e.1 } : SortState) = set_flag r.st (r.priv e.1) from rfl,
    compare_swap_set_flag]
  rfl

theorem region_step_priv (r : RegionState) (e : Nat × Nat) :
    (region_step r e).priv
      = Function.update r.priv e.1
          (r.priv e.1 && (compare_swap (set_flag r.st true) e.2).is_sorted) := by
  unfold region_step
  simp only
  rw [show ({ r.st with is_sorted := r.priv e.1 } : SortState) = set_flag r.st (r.priv e.1) from rfl,
    compare_swap_set_flag]
  rfl

/-- The events of a region act on the shared state like the sequential loop
body, and the private copies jointly record whether any of them swapped. -/
theorem region_foldl (team : Nat) (ex : Execution) (r : RegionState)
    (hw : ∀ e ∈ ex, e.1 < team) :
    (ex.foldl region_step r).st
        = set_flag ((ex.map Prod.snd).foldl compare_swap (set_flag r.st true)) r.st.is_sorted ∧
      (List.range team).all (ex.foldl region_step r).priv
        = ((List.range team).all r.priv
            && ((ex.map Prod.snd).foldl compare_swap (set_flag r.st true)).is_sorted) := by
  induction ex generalizing r with
  | nil => exact ⟨rfl, by simp [set_flag]⟩
  | cons e ex ih =>
    obtain ⟨h1, h2⟩ := ih (region_step r e) (fun e' he' => hw e' (List.mem_cons_of_mem _ he'))
    have he : e.1 < team := hw e (List.mem_cons_self _ _)
    rw [List.foldl_cons, List.map_cons, List.foldl_cons]
    rw [h1, h2, region_step_st, region_step_priv, all_update_and _ _ _ _ he]
    generalize compare_swap (set_flag r.st true) e.2 = x
    rw [set_flag_set_flag]
    have hx := foldl_compare_swap_set_flag (ex.map Prod.snd) x x.is_sorted
    rw [set_flag_self] at hx
    rw [hx]
    constructor
    · rfl
    · simp [set_flag, Bool.and_assoc]

/-- A region whose execution runs each index of the loop once, by workers of
the team, leaves the state the sequential inner loop leaves. -/
theorem parallel_region_eq (n s team : Nat) (ex : Execution) (st : SortState)
    (hp : (ex.map Prod.snd).Perm (loop_indices n n s)) (hw : ∀ e ∈ ex, e.1 < team) :
    parallel_region team ex st = sub_pass_loop n n s st := by
  obtain ⟨h1, h2⟩ := region_foldl team ex { st := st, priv := fun _ => true } hw
  unfold parallel_region
  simp only at h1 h2 ⊢
  rw [show ((List.range team).all fun _ => true) = true from
    List.all_eq_true.mpr (fun _ _ => rfl), Bool.true_and] at h2
  rw [h1, h2, sub_pass_loop_eq_foldl, ← foldl_compare_swap_perm n s _ st hp]
  have hx := foldl_compare_swap_set_flag (ex.map Prod.snd) st st.is_sorted
  rw [set_flag_self] at hx
  rw [hx]
  simp [set_flag]

/-! ## One phase -/

theorem phase_body_eq (n : Nat) (st : SortState) :
    phase_body n st
      = { (loop_indices n n 0).foldl compare_swap
            ((loop_indices n n 1).foldl compare_swap (set_flag st true)) with
          phase := st.phase + 1 } := by
  unfold phase_body odd_pass even_pass
  simp only [sub_pass_loop_eq_foldl, foldl_compare_swap_phase]
  rfl

theorem phase_body_phase (n : Nat) (st : SortState) :
    (phase_body n st).phase = st.phase + 1 := by
  rw [phase_body_eq]

theorem phase_body_arr (n : Nat) (st : SortState) :
    (phase_body n st).arr
      = (loop_indices n n 0).foldl cas ((loop_indices n n 1).foldl cas st.arr) := by
  rw [phase_body_eq]
  simp only [foldl_compare_swap_arr]
  rfl

theorem phase_body_arr_run (n p : Nat) (l : List Int) (st : SortState)
    (h : st.arr = run_passes n (2 * p) l) :
    (phase_body n st).arr = run_passes n (2 * (p + 1)) l := by
  rw [phase_body_arr, h, show 2 * (p + 1) = (2 * p + 1) + 1 by ring, run_passes, run_passes]
  rw [show (2 * p + 1 + 1) % 2 = 0 by omega, show (2 * p + 1) % 2 = 1 by omega]

theorem phase_body_length (n : Nat) (st : SortState) :
    (phase_body n st).arr.length = st.arr.length := by
  rw [phase_body_arr, foldl_cas_length, foldl_cas_length]

theorem phase_body_perm (n : Nat) (st : SortState) (hn : st.arr.length = n) :
    (phase_body n st).arr.Perm st.arr := by
  rw [phase_body_arr]
  exact (foldl_cas_perm _ _ (pass_indices_bound n 0 _ (by rw [foldl_cas_length, hn]))).trans
    (foldl_cas_perm _ _ (pass_indices_bound n 1 _ hn))

/-- A phase entered with all adjacent pairs in order swaps nothing and ends
with the flag set. -/
theorem phase_body_of_chain (n : Nat) (st : SortState) (hn : st.arr.length = n)
    (hc : List.Chain' (fun a b => a ≤ b) st.arr) :
    phase_body n st =
      { arr := st.arr, is_sorted := true, phase := st.phase + 1, swaps := st.swaps
        comparisons := st.comparisons + (loop_indices n n 1).length
          + (loop_indices n n 0).length } := by
  rw [chain_iff_getD] at hc
  have h1 := foldl_compare_swap_of_le (loop_indices n n 1) (set_flag st true)
    (fun i hi => hc i (pass_indices_bound n 1 _ hn i hi))
  rw [phase_body_eq, h1]
  have h0 := foldl_compare_swap_of_le (loop_indices n n 0)
    { set_flag st true with
      comparisons := (set_flag st true).comparisons + (loop_indices n n 1).length }
    (fun i hi => hc i (pass_indices_bound n 0 _ hn i hi))
  rw [h0]
  rfl

/-- A phase that ends with the flag set was entered with all adjacent pairs
in order. -/
theorem phase_body_flag (n : Nat) (st : SortState) (hn : st.arr.length = n)
    (h : (phase_body n st).is_sorted = true) : List.Chain' (fun a b => a ≤ b) st.arr := by
  rw [phase_body_eq] at h
  simp only at h
  obtain ⟨h1, h0⟩ := foldl_compare_swap_flag _ _ h
  obtain ⟨_, h1'⟩ := foldl_compare_swap_flag _ _ h1
  rw [foldl_compare_swap_of_le _ _ h1'] at h0
  rw [chain_iff_getD]
  intro i hi
  rcases Nat.mod_two_eq_zero_or_one i with hpar | hpar
  · exact h0 i ((mem_pass_indices n 0 i).mpr ⟨Nat.zero_le _, by omega, by omega⟩)
  · exact h1' i ((mem_pass_indices n 1 i).mpr ⟨by omega, by omega, by omega⟩)

/-! ## The phase loop -/

/-- The phase loop stops on its own test: more iterations allowed change
nothing. -/
theorem phase_loop_fuel (n fuel extra : Nat) (st : SortState) (h : n ≤ fuel + st.phase) :
    phase_loop n (fuel + extra) st = phase_loop n fuel st := by
  induction fuel generalizing st with
  | zero =>
    rcases extra with _ | extra
    · rfl
    · rw [Nat.zero_add]
      unfold phase_loop
      rw [if_neg (by omega)]
  | succ fuel ih =>
    rw [Nat.add_right_comm]
    unfold phase_loop
    split
    · exact ih _ (by rw [phase_body_phase]; omega)
    · rfl

/-- Invariant of the phase loop: the vector is the input after two sub-passes
per phase, and a set flag means all adjacent pairs are in order; at exit the
loop test is false. -/
theorem phase_loop_inv (n : Nat) (l : List Int) (hn : l.length = n) (fuel : Nat)
    (st : SortState) (h1 : st.arr = run_passes n (2 * st.phase) l)
    (h2 : st.is_sorted = true → List.Chain' (fun a b => a ≤ b) st.arr) :
    (phase_loop n fuel st).arr = run_passes n (2 * (phase_loop n fuel st).phase) l ∧
    ((phase_loop n fuel st).is_sorted = true →
      List.Chain' (fun a b => a ≤ b) (phase_loop n fuel st).arr) ∧
    (n ≤ fuel + st.phase →
      ¬ ((phase_loop n fuel st).phase < n ∧ (phase_loop n fuel st).is_sorted = false)) := by
  induction fuel generalizing st with
  | zero =>
    refine ⟨h1, h2, fun h => ?_⟩
    simp only [phase_loop]
    omega
  | succ fuel ih =>
    unfold phase_loop
    split
    · have a1 : (phase_body n st).arr = run_passes n (2 * (phase_body n st).phase) l := by
        rw [phase_body_phase]
        exact phase_body_arr_run n st.phase l st h1
      have hlen : st.arr.length = n := by rw [h1, run_passes_length, hn]
      have a2 : (phase_body n st).is_sorted = true →
          List.Chain' (fun a b => a ≤ b) (phase_body n st).arr := by
        intro hf
        have hc := phase_body_flag n st hlen hf
        rw [phase_body_of_chain n st hlen hc]
        exact hc
      obtain ⟨b1, b2, b3⟩ := ih (phase_body n st) a1 a2
      exact ⟨b1, b2, fun h => b3 (by rw [phase_body_phase]; omega)⟩
    · rename_i hc
      exact ⟨h1, h2, fun _ => hc⟩

/-- The phase counter never exceeds `⌈n / 2⌉ + 1`, and never `⌈n / 2⌉` while the
flag is unset: once `n` sub-passes have run the vector is in order and the
next phase is the last. -/
theorem phase_loop_phase_le (n : Nat) (l : List Int) (hn : l.length = n) (fuel : Nat)
    (st : SortState) (h1 : st.arr = run_passes n (2 * st.phase) l)
    (hb : st.phase ≤ (n + 1) / 2 + 1) (hc : st.is_sorted = false → st.phase ≤ (n + 1) / 2) :
    (phase_loop n fuel st).phase ≤ (n + 1) / 2 + 1 ∧
    ((phase_loop n fuel st).is_sorted = false → (phase_loop n fuel st).phase ≤ (n + 1) / 2) := by
  induction fuel generalizing st with
  | zero => exact ⟨hb, hc⟩
  | succ fuel ih =>
    unfold phase_loop
    split
    · rename_i hcond
      have hlen : st.arr.length = n := by rw [h1, run_passes_length, hn]
      have a1 : (phase_body n st).arr = run_passes n (2 * (phase_body n st).phase) l := by
        rw [phase_body_phase]
        exact phase_body_arr_run n st.phase l st h1
      have hp := hc hcond.2
      apply ih _ a1
      · rw [phase_body_phase]; omega
      · intro hf
        rw [phase_body_phase]
        by_contra hgt
        have hsorted : List.Chain' (fun a b => a ≤ b) st.arr := by
          rw [h1]
          exact run_passes_chain n _ l hn (by omega)
        rw [phase_body_of_chain n st hlen hsorted] at hf
        simp at hf
    · exact ⟨hb, hc⟩

theorem phase_loop_perm (n fuel : Nat) (st : SortState) (hn : st.arr.length = n) :
    (phase_loop n fuel st).arr.Perm st.arr := by
  induction fuel generalizing st with
  | zero => exact List.Perm.refl _
  | succ fuel ih =>
    unfold phase_loop
    split
    · exact (ih _ (by rw [phase_body_length, hn])).trans (phase_body_perm n st hn)
    · exact List.Perm.refl _

/-! ## The OpenMP variant follows the sequential one -/

theorem phase_body_parallel_eq (n team : Nat) (sched : Schedule) (st : SortState)
    (hv : ValidSchedule n team sched) :
    phase_body_parallel team sched st = phase_body n st := by
  obtain ⟨p1, p0, w1, w0⟩ := hv st.phase
  unfold phase_body_parallel phase_body odd_pass even_pass
  simp only
  rw [parallel_region_eq n 1 team _ _ p1 w1, parallel_region_eq n 0 team _ _ p0 w0]

theorem phase_loop_parallel_eq (n team : Nat) (sched : Schedule) (fuel : Nat) (st : SortState)
    (hv : ValidSchedule n team sched) :
    phase_loop_parallel n team sched fuel st = phase_loop n fuel st := by
  induction fuel generalizing st with
  | zero => rfl
  | succ fuel ih =>
    unfold phase_loop_parallel phase_loop
    rw [phase_body_parallel_eq n team sched st hv, ih]

theorem parallel_run_eq (arr : List Int) (num_threads : Int) (omp_default : Nat)
    (sched : Schedule)
    (hv : ValidSchedule arr.length (resolve_threads num_threads omp_default) sched) :
    odd_even_sort_parallel_run arr num_threads omp_default sched
      = odd_even_sort_sequential_run arr := by
  unfold odd_even_sort_parallel_run odd_even_sort_sequential_run
  simp only
  split
  · rfl
  · exact phase_loop_parallel_eq _ _ _ _ _ hv

/-! ## The sequential sort call -/

theorem init_state_run (n : Nat) (arr : List Int) :
    (init_state arr).arr = run_passes n (2 * (init_state arr).phase) arr := rfl

theorem sequential_run_chain (arr : List Int) :
    List.Chain' (fun a b => a ≤ b) (odd_even_sort_sequential_run arr).arr := by
  unfold odd_even_sort_sequential_run
  simp only
  split
  · rename_i h
    match arr, h with
    | [], _ => exact List.chain'_nil
    | [a], _ => exact List.chain'_singleton a
  · obtain ⟨b1, b2, b3⟩ := phase_loop_inv arr.length arr rfl arr.length (init_state arr)
      (init_state_run _ arr) (fun h => by simp [init_state] at h)
    have hexit := b3 (Nat.le_add_right _ _)
    by_cases hf : (phase_loop arr.length arr.length (init_state arr)).is_sorted = true
    · exact b2 hf
    · rw [b1]
      have hf2 : (phase_loop arr.length arr.length (init_state arr)).is_sorted = false := by
        simpa using hf
      have hge : ¬ (phase_loop arr.length arr.length (init_state arr)).phase < arr.length :=
        fun hlt => hexit ⟨hlt, hf2⟩
      exact run_passes_chain _ _ arr rfl (by omega)

theorem sequential_run_perm (arr : List Int) :
    (odd_even_sort_sequential_run arr).arr.Perm arr := by
  unfold odd_even_sort_sequential_run
  simp only
  split
  · exact List.Perm.refl _
  · exact phase_loop_perm arr.length arr.length (init_state arr) rfl

theorem sequential_run_phase_le (arr : List Int) (h : 2 ≤ arr.length) :
    (odd_even_sort_sequential_run arr).phase ≤ (arr.length + 1) / 2 + 1 := by
  unfold odd_even_sort_sequential_run
  simp only
  rw [if_neg (by omega)]
  exact (phase_loop_phase_le arr.length arr rfl arr.length (init_state arr)
    (init_state_run _ arr) (Nat.zero_le _) (fun _ => Nat.zero_le _)).1

/-- On a vector of length at least 2 the phase loop always ends on the flag,
never on the cap `phase < n` alone. -/
theorem sequential_run_flag (arr : List Int) (h : 2 ≤ arr.length) :
    (odd_even_sort_sequential_run arr).is_sorted = true := by
  unfold odd_even_sort_sequential_run
  simp only
  rw [if_neg (by omega)]
  have hle := (phase_loop_phase_le arr.length arr rfl arr.length (init_state arr)
    (init_state_run _ arr) (Nat.zero_le _) (fun _ => Nat.zero_le _)).2
  have hexit := (phase_loop_inv arr.length arr rfl arr.length (init_state arr)
    (init_state_run _ arr) (fun h => by simp [init_state] at h)).2.2 (Nat.le_add_right _ _)
  cases hf : (phase_loop arr.length arr.length (init_state arr)).is_sorted with
  | true => rfl
  | false =>
    have h1 := hle hf
    have h2 : ¬ (phase_loop arr.length arr.length (init_state arr)).phase < arr.length :=
      fun hlt => hexit ⟨hlt, hf⟩
    omega

theorem sequential_run_of_short (arr : List Int) (h : arr.length ≤ 1) :
    odd_even_sort_sequential_run arr = init_state arr := by
  unfold odd_even_sort_sequential_run
  simp only
  rw [if_pos h]

theorem parallel_run_of_short (arr : List Int) (num_threads : Int) (omp_default : Nat)
    (sched : Schedule) (h : arr.length ≤ 1) :
    odd_even_sort_parallel_run arr num_threads omp_default sched = init_state arr := by
  unfold odd_even_sort_parallel_run
  simp only
  rw [if_pos h]

/-- On a vector of length at least 2 with all adjacent pairs in order the
call runs one phase, which swaps nothing and sets the flag. -/
theorem sequential_run_of_chain (arr : List Int) (h : 2 ≤ arr.length)
    (hc : List.Chain' (fun a b => a ≤ b) arr) :
    odd_even_sort_sequential_run arr =
      { arr := arr, is_sorted := true, phase := 1, swaps := 0
        comparisons := (loop_indices arr.length arr.length 1).length
          + (loop_indices arr.length arr.length 0).length } := by
  unfold odd_even_sort_sequential_run
  simp only
  rw [if_neg (by omega)]
  obtain ⟨m, hm⟩ : ∃ m, arr.length = m + 2 := ⟨arr.length - 2, by omega⟩
  have e := phase_body_of_chain arr.length (init_state arr) rfl hc
  rw [hm] at e ⊢
  rw [phase_loop, if_pos ⟨by simp [init_state], rfl⟩, e, phase_loop, if_neg (by simp)]
  simp [init_state]

theorem chain_of_sorted (l : List Int) (h : List.Sorted (fun a b => a ≤ b) l) :
    List.Chain' (fun a b => a ≤ b) l :=
  List.chain'_iff_pairwise.mpr h

theorem reversed_schedule_valid (n team : Nat) (h : 0 < team) :
    ValidSchedule n team (reversed_schedule n team) := by
  intro phase
  unfold reversed_schedule
  refine ⟨?_, ?_, ?_, ?_⟩
  · simp only [List.map_map, if_true]
    rw [show (Prod.snd ∘ fun i => (i / 2 % team, i)) = id from rfl, List.map_id]
    exact List.reverse_perm _
  · simp only [List.map_map]
    rw [show (Prod.snd ∘ fun i => (i / 2 % team, i)) = id from rfl, List.map_id]
    exact List.reverse_perm _
  · intro e he
    obtain ⟨i, _, rfl⟩ := List.mem_map.mp he
    exact Nat.mod_lt _ h
  · intro e he
    obtain ⟨i, _, rfl⟩ := List.mem_map.mp he
    exact Nat.mod_lt _ h

/-! ## Digits -/

theorem digit_char_props (d : Nat) (h : d < 10) :
    is_digit (digit_char d) = true ∧ digit_value (digit_char d) = d ∧
    is_space (digit_char d) = false ∧ digit_char d ≠ '\n' ∧ digit_char d ≠ '-' ∧
    digit_char d ≠ '+' := by
  interval_cases d <;> decide

theorem is_space_not_digit (c : Char) (h : is_space c = true) : is_digit c = false := by
  simp only [is_space, Bool.or_eq_true, decide_eq_true_eq] at h
  rcases h with ((((rfl | rfl) | rfl) | rfl) | rfl) | rfl <;> decide

theorem show_nat_digits_props (fuel : Nat) :
    ∀ n, n < fuel →
      show_nat_digits fuel n ≠ [] ∧
      (∀ c ∈ show_nat_digits fuel n, is_digit c = true ∧ is_space c = false ∧ c ≠ '\n') ∧
      (show_nat_digits fuel n).foldl (fun a c => a * 10 + digit_value c) 0 = n := by
  induction fuel with
  | zero => intro n h; omega
  | succ fuel ih =>
    intro n hn
    unfold show_nat_digits
    split
    · rename_i h10
      have hp := digit_char_props n h10
      refine ⟨by simp, ?_, ?_⟩
      · intro c hc
        rw [List.mem_singleton] at hc
        subst hc
        exact ⟨hp.1, hp.2.2.1, hp.2.2.2.1⟩
      · simp [hp.2.1]
    · rename_i h10
      obtain ⟨_, i2, i3⟩ := ih (n / 10) (by omega)
      have hp := digit_char_props (n % 10) (Nat.mod_lt _ (by decide))
      refine ⟨by simp, ?_, ?_⟩
      · intro c hc
        rcases List.mem_append.mp hc with hc | hc
        · exact i2 c hc
        · rw [List.mem_singleton] at hc
          subst hc
          exact ⟨hp.1, hp.2.2.1, hp.2.2.2.1⟩
      · rw [List.foldl_append, i3]
        simp only [List.foldl_cons, List.foldl_nil, hp.2.1]
        omega

theorem show_nat_props (n : Nat) :
    show_nat n ≠ [] ∧
    (∀ c ∈ show_nat n, is_digit c = true ∧ is_space c = false ∧ c ≠ '\n') ∧
    (show_nat n).foldl (fun a c => a * 10 + digit_value c) 0 = n :=
  show_nat_digits_props (n + 1) n (Nat.lt_succ_self n)

theorem show_int_props (x : Int) :
    show_int x ≠ [] ∧ (∀ c ∈ show_int x, is_space c = false ∧ c ≠ '\n') := by
  obtain ⟨h1, h2, _⟩ := show_nat_props x.natAbs
  unfold show_int
  split
  · refine ⟨by simp, ?_⟩
    intro c hc
    rcases List.mem_cons.mp hc with rfl | hc
    · exact ⟨by decide, by decide⟩
    · exact ⟨(h2 c hc).2.1, (h2 c hc).2.2⟩
  · exact ⟨h1, fun c hc => ⟨(h2 c hc).2.1, (h2 c hc).2.2⟩⟩

/-! ## Extraction of an `int` -/

/-- A text that is empty or begins with a character that is not a digit. -/
theorem read_digits_of_stop (rest : Text) (acc : Nat)
    (h : ∀ c ∈ rest.head?, is_digit c = false) : read_digits rest acc = (acc, rest) := by
  cases rest with
  | nil => rfl
  | cons c r =>
    have hc : is_digit c = false := h c (by simp)
    simp [read_digits, hc]

theorem read_digits_append (s rest : Text) (acc : Nat)
    (h : ∀ c ∈ rest.head?, is_digit c = false) :
    read_digits (s ++ rest) acc = ((read_digits s acc).1, (read_digits s acc).2 ++ rest) := by
  induction s generalizing acc with
  | nil =>
    rw [List.nil_append, read_digits_of_stop rest acc h]
    rfl
  | cons c s ih =>
    rw [List.cons_append]
    unfold read_digits
    split
    · exact ih _
    · rfl

theorem read_digits_all (ds : Text) (acc : Nat) (h : ∀ c ∈ ds, is_digit c = true) :
    read_digits ds acc = (ds.foldl (fun a c => a * 10 + digit_value c) acc, []) := by
  induction ds generalizing acc with
  | nil => rfl
  | cons c ds ih =>
    unfold read_digits
    rw [if_pos (h c (List.mem_cons_self _ _)), ih _ (fun c' hc' => h c' (List.mem_cons_of_mem _ hc'))]
    rfl

theorem extract_digits_append (neg : Bool) (s rest : Text)
    (h : ∀ c ∈ rest.head?, is_digit c = false) :
    extract_digits neg (s ++ rest)
      = (extract_digits neg s).map (fun p => (p.1, p.2 ++ rest)) := by
  cases s with
  | nil =>
    rw [List.nil_append]
    cases rest with
    | nil => rfl
    | cons c r =>
      have hc : is_digit c = false := h c (by simp)
      simp [extract_digits, hc]
  | cons c s =>
    rw [List.cons_append]
    unfold extract_digits
    simp only
    split
    · rw [← List.cons_append, read_digits_append (c :: s) rest 0 h]
      simp only
      by_cases hr : int_min ≤ (if neg = true then -((read_digits (c :: s) 0).1 : Int)
          else ((read_digits (c :: s) 0).1 : Int)) ∧
          (if neg = true then -((read_digits (c :: s) 0).1 : Int)
          else ((read_digits (c :: s) 0).1 : Int)) ≤ int_max
      · rw [if_pos hr, if_pos hr]
        rfl
      · rw [if_neg hr, if_neg hr]
        rfl
    · rfl

theorem is_digit_not_sign (c : Char) (h : is_digit c = true) :
    c ≠ '-' ∧ c ≠ '+' ∧ is_space c = false := by
  refine ⟨?_, ?_, ?_⟩
  · rintro rfl
    exact absurd h (by decide)
  · rintro rfl
    exact absurd h (by decide)
  · cases hs : is_space c with
    | false => rfl
    | true => rw [is_space_not_digit c hs] at h; exact absurd h (by decide)

theorem dropWhile_space_token (sep tok rest : Text) (hs : ∀ c ∈ sep, is_space c = true)
    (c : Char) (t : Text) (ht : tok = c :: t) (hc : is_space c = false) :
    (sep ++ tok ++ rest).dropWhile is_space = c :: (t ++ rest) := by
  rw [List.append_assoc, List.dropWhile_append_of_pos hs, ht, List.cons_append,
    List.dropWhile_cons_of_neg (by simp [hc])]

/-- Extraction from a token does not depend on the white space before it nor
on what follows it, as long as no digit follows directly. -/
theorem extract_int_token (sep tok rest : Text) (hs : ∀ c ∈ sep, is_space c = true)
    (hne : tok ≠ []) (htok : ∀ c ∈ tok, is_space c = false)
    (hr : ∀ c ∈ rest.head?, is_digit c = false) :
    extract_int (sep ++ tok ++ rest)
      = (extract_int tok).map (fun p => (p.1, p.2 ++ rest)) := by
  obtain ⟨c, t, rfl⟩ := List.exists_cons_of_ne_nil hne
  have hc : is_space c = false := htok c (List.mem_cons_self _ _)
  have e1 := dropWhile_space_token sep (c :: t) rest hs c t rfl hc
  have e2 : (c :: t).dropWhile is_space = c :: t :=
    List.dropWhile_cons_of_neg (by simp [hc])
  unfold extract_int
  rw [e1, e2]
  simp only
  split
  · exact extract_digits_append true t rest hr
  · split
    · exact extract_digits_append false t rest hr
    · rw [← List.cons_append]
      exact extract_digits_append false (c :: t) rest hr

theorem extract_digits_show_nat (neg : Bool) (n : Nat)
    (hx : int_min ≤ (if neg = true then -(n : Int) else (n : Int)) ∧
      (if neg = true then -(n : Int) else (n : Int)) ≤ int_max) :
    extract_digits neg (show_nat n)
      = some ((if neg = true then -(n : Int) else (n : Int)), []) := by
  obtain ⟨h1, h2, h3⟩ := show_nat_props n
  obtain ⟨d, ds, hd⟩ := List.exists_cons_of_ne_nil h1
  have hall : ∀ c ∈ show_nat n, is_digit c = true := fun c hc => (h2 c hc).1
  have hread := read_digits_all (show_nat n) 0 hall
  rw [h3] at hread
  rw [hd] at hread hall
  rw [hd]
  unfold extract_digits
  simp only
  rw [if_pos (hall d (List.mem_cons_self _ _)), hread]
  simp only
  rw [if_pos hx]

/-- Extraction reads back the text that `operator<<` writes for an `int`. -/
theorem extract_int_show_int (x : Int) (hx : int_min ≤ x ∧ x ≤ int_max) :
    extract_int (show_int x) = some (x, []) := by
  obtain ⟨h1, h2, _⟩ := show_nat_props x.natAbs
  unfold show_int
  split
  · rename_i hneg
    unfold extract_int
    rw [List.dropWhile_cons_of_neg (by decide)]
    simp only
    rw [if_pos trivial]
    have e : (if true = true then -((x.natAbs : Nat) : Int) else ((x.natAbs : Nat) : Int)) = x := by
      rw [if_pos rfl]
      omega
    have := extract_digits_show_nat true x.natAbs (by rw [e]; exact hx)
    rw [e] at this
    exact this
  · rename_i hpos
    obtain ⟨d, ds, hd⟩ := List.exists_cons_of_ne_nil h1
    have hdig : is_digit d = true := (h2 d (by rw [hd]; exact List.mem_cons_self _ _)).1
    obtain ⟨n1, n2, n3⟩ := is_digit_not_sign d hdig
    have e : (if false = true then -((x.natAbs : Nat) : Int) else ((x.natAbs : Nat) : Int)) = x := by
      rw [if_neg (by decide)]
      omega
    have := extract_digits_show_nat false x.natAbs (by rw [e]; exact hx)
    rw [e, hd] at this
    unfold extract_int
    rw [hd, List.dropWhile_cons_of_neg (by simp [n3])]
    simp only
    rw [if_neg n1, if_neg n2]
    exact this

/-- Extraction of a written `int` followed by white space. -/
theorem extract_int_written (sep rest : Text) (x : Int) (hx : int_min ≤ x ∧ x ≤ int_max)
    (hs : ∀ c ∈ sep, is_space c = true) (hr : ∀ c ∈ rest.head?, is_digit c = false) :
    extract_int (sep ++ show_int x ++ rest) = some (x, rest) := by
  obtain ⟨h1, h2⟩ := show_int_props x
  rw [extract_int_token sep (show_int x) rest hs h1 (fun c hc => (h2 c hc).1) hr,
    extract_int_show_int x hx]
  rfl

theorem extract_int_of_space (s : Text) (h : ∀ c ∈ s, is_space c = true) :
    extract_int s = none := by
  unfold extract_int
  rw [List.dropWhile_eq_nil_iff.mpr h]

/-! ## Lines of the written text -/

theorem split_lines_append (w rest : Text) (h : ∀ c ∈ w, c ≠ '\n') :
    split_lines (w ++ '\n' :: rest) = w :: split_lines rest := by
  induction w with
  | nil =>
    rw [List.nil_append, split_lines, if_pos rfl]
  | cons c w ih =>
    rw [List.cons_append, split_lines, if_neg (h c (List.mem_cons_self _ _)),
      ih (fun c' hc' => h c' (List.mem_cons_of_mem _ hc'))]

/-- The element loop writes each element on a line of its own once the
newline that follows the loop is counted in. -/
theorem write_elements_lines (size : Nat) (xs : List Int) (i : Nat)
    (hi : i + xs.length = size) (hne : xs ≠ []) :
    write_elements size i xs ++ ['\n']
      = (xs.map (fun x => show_int x ++ ['\n'])).flatten := by
  induction xs generalizing i with
  | nil => exact absurd rfl hne
  | cons x xs ih =>
    rw [List.length_cons] at hi
    cases xs with
    | nil =>
      rw [List.length_nil] at hi
      simp only [write_elements, List.map_cons, List.map_nil, List.flatten_cons,
        List.flatten_nil, List.append_nil]
      rw [if_pos (by omega), List.append_nil]
    | cons y ys =>
      rw [List.length_cons] at hi
      have := ih (i + 1) (by rw [List.length_cons]; omega) (by simp)
      rw [write_elements, if_neg (by omega), List.map_cons, List.flatten_cons, ← this]
      simp only [List.append_assoc]

theorem split_lines_elements (xs : List Int) (rest : Text) :
    split_lines ((xs.map (fun x => show_int x ++ ['\n'])).flatten ++ rest)
      = xs.map show_int ++ split_lines rest := by
  induction xs with
  | nil => rfl
  | cons x xs ih =>
    rw [List.map_cons, List.flatten_cons, List.append_assoc, List.append_assoc,
      List.singleton_append, split_lines_append _ _ (fun c hc => ((show_int_props x).2 c hc).2),
      ih, List.map_cons, List.cons_append]

theorem write_results_text (data : List Int) (time_text : Text) (hne : data ≠ []) :
    write_results true data time_text
      = .ok (show_nat data.length ++ '\n' ::
          ((data.map (fun x => show_int x ++ ['\n'])).flatten ++ (time_text ++ ['\n']))) := by
  unfold write_results
  rw [if_pos rfl, ← write_elements_lines data.length data 0 (by omega) hne]
  simp only [List.append_assoc, List.singleton_append, List.cons_append, List.nil_append]

theorem write_results_omp_text (data : List Int) (time_text : Text) (num_threads : Int)
    (hne : data ≠ []) :
    write_results_omp true data time_text num_threads
      = .ok (show_nat data.length ++ '\n' ::
          ((data.map (fun x => show_int x ++ ['\n'])).flatten
            ++ (time_text ++ '\n' :: (show_int num_threads ++ ['\n'])))) := by
  unfold write_results_omp
  rw [if_pos rfl, ← write_elements_lines data.length data 0 (by omega) hne]
  simp only [List.append_assoc, List.singleton_append, List.cons_append, List.nil_append]

/-! ## Reading back what was written -/

theorem stop_newline (r : Text) : ∀ c ∈ ('\n' :: r).head?, is_digit c = false := by
  intro c hc
  rw [List.head?_cons, Option.mem_def, Option.some.injEq] at hc
  subst hc
  decide

theorem space_newline : ∀ c ∈ ['\n'], is_space c = true := by
  intro c hc
  rw [List.mem_singleton] at hc
  subst hc
  decide

theorem read_elements_written (xs : List Int) (sep rest : Text)
    (hx : ∀ x ∈ xs, int_min ≤ x ∧ x ≤ int_max) (hs : ∀ c ∈ sep, is_space c = true) :
    read_elements xs.length
        (sep ++ (xs.map (fun x => show_int x ++ ['\n'])).flatten ++ rest) = .ok xs := by
  induction xs generalizing sep with
  | nil => rfl
  | cons x xs ih =>
    have e : sep ++ ((x :: xs).map (fun x => show_int x ++ ['\n'])).flatten ++ rest
        = sep ++ show_int x
          ++ ('\n' :: ((xs.map (fun x => show_int x ++ ['\n'])).flatten ++ rest)) := by
      simp only [List.map_cons, List.flatten_cons, List.append_assoc, List.singleton_append,
        List.cons_append, List.nil_append]
    rw [e, List.length_cons, read_elements,
      extract_int_written sep _ x (hx x (List.mem_cons_self _ _)) hs (stop_newline _)]
    simp only
    have := ih ['\n'] (fun y hy => hx y (List.mem_cons_of_mem _ hy)) space_newline
    rw [List.append_assoc, List.singleton_append] at this
    rw [this]

theorem show_nat_eq_show_int (n : Nat) : show_nat n = show_int (n : Int) := by
  unfold show_int
  rw [if_neg (by omega)]
  rfl

/-- The loader reads back the vector from any text that begins with the count
line and one line per element. -/
theorem read_data_written (d : List Int) (rest : Text) (hne : d ≠ [])
    (hint : is_int_vector d) :
    read_data (some (show_nat d.length ++ '\n' ::
      ((d.map (fun x => show_int x ++ ['\n'])).flatten ++ rest))) = .ok d := by
  have hlen : 0 < d.length := List.length_pos.mpr hne
  have hr : int_min ≤ (d.length : Int) ∧ (d.length : Int) ≤ int_max :=
    ⟨by unfold int_min; omega, hint.1⟩
  have e := extract_int_written [] ('\n' ::
      ((d.map (fun x => show_int x ++ ['\n'])).flatten ++ rest)) (d.length : Int) hr
    (fun c hc => absurd hc (List.not_mem_nil _)) (stop_newline _)
  rw [List.nil_append, ← show_nat_eq_show_int] at e
  unfold read_data
  simp only
  rw [e]
  simp only
  rw [if_neg (by omega), Int.toNat_ofNat]
  have := read_elements_written d ['\n'] rest hint.2 space_newline
  rw [List.append_assoc, List.singleton_append] at this
  exact this

/-! ## Reading a token stream -/

theorem well_separated_cons (first : Bool) (sep tok : Text) (rest : TokenStream)
    (h : well_separated first ((sep, tok) :: rest) = true) :
    (∀ c ∈ sep, is_space c = true) ∧ (first = true ∨ sep ≠ []) ∧ tok ≠ [] ∧
    (∀ c ∈ tok, is_space c = false) ∧ well_separated false rest = true := by
  simp only [well_separated, Bool.and_eq_true, List.all_eq_true, Bool.or_eq_true,
    Bool.not_eq_true', List.isEmpty_eq_false] at h
  obtain ⟨⟨⟨⟨h1, h2⟩, h3⟩, h4⟩, h5⟩ := h
  exact ⟨h1, h2, h3, h4, h5⟩

/-- After a token comes the end of the text or white space, never a digit. -/
theorem stop_after_token (ts : TokenStream) (tail : Text)
    (hw : well_separated false ts = true) (ht : ∀ c ∈ tail, is_space c = true) :
    ∀ c ∈ (render_tokens ts ++ tail).head?, is_digit c = false := by
  intro c hc
  apply is_space_not_digit
  cases ts with
  | nil =>
    rw [render_tokens, List.nil_append] at hc
    exact ht c (List.mem_of_mem_head? hc)
  | cons t ts =>
    obtain ⟨sep, tok⟩ := t
    obtain ⟨h1, h2, _, _, _⟩ := well_separated_cons false sep tok ts hw
    have hsep : sep ≠ [] := by
      rcases h2 with h2 | h2
      · exact absurd h2 (by decide)
      · exact h2
    obtain ⟨s, ss, rfl⟩ := List.exists_cons_of_ne_nil hsep
    rw [render_tokens] at hc
    simp only [List.cons_append, List.head?_cons, Option.mem_def, Option.some.injEq] at hc
    subst hc
    exact h1 s (List.mem_cons_self _ _)

theorem token_int_some (tok : Text) (v : Int) (h : token_int tok = some v) :
    extract_int tok = some (v, []) := by
  unfold token_int at h
  split at h
  · rename_i v' heq
    rw [Option.some.injEq] at h
    rw [heq, h]
  · exact absurd h (by simp)

/-- Extraction at the head of a token stream acts on the first token alone. -/
theorem extract_int_stream (first : Bool) (sep tok : Text) (ts : TokenStream) (tail : Text)
    (hw : well_separated first ((sep, tok) :: ts) = true)
    (ht : ∀ c ∈ tail, is_space c = true) :
    extract_int (render_tokens ((sep, tok) :: ts) ++ tail)
      = (extract_int tok).map (fun p => (p.1, p.2 ++ (render_tokens ts ++ tail))) := by
  obtain ⟨h1, _, h3, h4, h5⟩ := well_separated_cons first sep tok ts hw
  rw [render_tokens, List.append_assoc]
  exact extract_int_token sep tok _ h1 h3 h4 (stop_after_token ts tail h5 ht)

theorem read_elements_stream (vs : List Int) (ts : TokenStream) (tail : Text)
    (hw : well_separated false ts = true) (ht : ∀ c ∈ tail, is_space c = true)
    (hv : ((ts.map Prod.snd).take vs.length).map token_int = vs.map some) :
    read_elements vs.length (render_tokens ts ++ tail) = .ok vs := by
  induction vs generalizing ts with
  | nil => rfl
  | cons v vs ih =>
    cases ts with
    | nil => simp at hv
    | cons t ts =>
      obtain ⟨sep, tok⟩ := t
      simp only [List.map_cons, List.length_cons, List.take_succ_cons, List.cons.injEq] at hv
      obtain ⟨hv1, hv2⟩ := hv
      have h5 := (well_separated_cons false sep tok ts hw).2.2.2.2
      rw [List.length_cons, read_elements, extract_int_stream false sep tok ts tail hw ht,
        token_int_some tok v hv1]
      simp only [Option.map_some', List.nil_append]
      rw [ih ts h5 hv2]

theorem read_elements_short (ts : TokenStream) (tail : Text) (k : Nat)
    (hw : well_separated false ts = true) (ht : ∀ c ∈ tail, is_space c = true)
    (hv : ∀ t ∈ ts, token_int t.2 ≠ none) (hk : ts.length < k) :
    read_elements k (render_tokens ts ++ tail) = .error .not_enough_elements := by
  induction ts generalizing k with
  | nil =>
    obtain ⟨k, rfl⟩ : ∃ k', k = k' + 1 := ⟨k - 1, by simp at hk; omega⟩
    rw [render_tokens, List.nil_append, read_elements, extract_int_of_space tail ht]
  | cons t ts ih =>
    obtain ⟨sep, tok⟩ := t
    obtain ⟨k, rfl⟩ : ∃ k', k = k' + 1 := ⟨k - 1, by omega⟩
    rw [List.length_cons] at hk
    have h5 := (well_separated_cons false sep tok ts hw).2.2.2.2
    obtain ⟨v, hv1⟩ := Option.ne_none_iff_exists'.mp (hv (sep, tok) (List.mem_cons_self _ _))
    rw [read_elements, extract_int_stream false sep tok ts tail hw ht,
      token_int_some tok v hv1]
    simp only [Option.map_some', List.nil_append]
    rw [ih k h5 (fun t ht' => hv t (List.mem_cons_of_mem _ ht')) (by omega)]

theorem read_elements_length (k : Nat) (s : Text) (vs : List Int)
    (h : read_elements k s = .ok vs) : vs.length = k := by
  induction k generalizing s vs with
  | zero =>
    rw [read_elements] at h
    cases h
    rfl
  | succ k ih =>
    rw [read_elements] at h
    split at h
    · cases h
    · rename_i x rest _
      split at h
      · cases h
      · rename_i xs hxs
        cases h
        rw [List.length_cons, ih rest xs hxs]

/-- A stream whose first token is a count `n > 0` and whose next `n` tokens are
integers is loaded as those integers. -/
theorem read_data_stream (ts : TokenStream) (tail : Text) (n : Int) (vs : List Int)
    (hw : well_separated true ts = true) (ht : ∀ c ∈ tail, is_space c = true)
    (hn : 0 < n) (hlen : vs.length = n.toNat)
    (hv : ((ts.map Prod.snd).take (vs.length + 1)).map token_int = some n :: vs.map some) :
    read_data (some (render_tokens ts ++ tail)) = .ok vs := by
  cases ts with
  | nil => simp at hv
  | cons t ts =>
    obtain ⟨sep, tok⟩ := t
    simp only [List.map_cons, List.take_succ_cons, List.cons.injEq] at hv
    obtain ⟨hv1, hv2⟩ := hv
    have h5 := (well_separated_cons true sep tok ts hw).2.2.2.2
    unfold read_data
    simp only
    rw [extract_int_stream true sep tok ts tail hw ht, token_int_some tok n hv1]
    simp only [Option.map_some', List.nil_append]
    rw [if_neg (by omega), ← hlen]
    exact read_elements_stream vs ts tail h5 ht hv2

/-! ## The integers of a token stream -/

theorem read_digits_suffix (s : Text) (acc : Nat) :
    ∃ p, s = p ++ (read_digits s acc).2 ∧
      (∀ c s', s = c :: s' → is_digit c = true → p ≠ []) := by
  induction s generalizing acc with
  | nil => exact ⟨[], rfl, fun c s' h => by cases h⟩
  | cons c s ih =>
    unfold read_digits
    split
    · obtain ⟨p, hp, _⟩ := ih (acc * 10 + digit_value c)
      refine ⟨c :: p, ?_, fun _ _ _ _ => by simp⟩
      rw [List.cons_append, ← hp]
    · rename_i hc
      refine ⟨[], rfl, fun c' s' h hd => ?_⟩
      rw [List.cons.injEq] at h
      rw [h.1] at hc
      exact absurd hd hc

theorem extract_digits_suffix (neg : Bool) (s r : Text) (v : Int)
    (h : extract_digits neg s = some (v, r)) : ∃ p, s = p ++ r ∧ p ≠ [] := by
  cases s with
  | nil => cases h
  | cons c s =>
    unfold extract_digits at h
    simp only at h
    by_cases hd : is_digit c = true
    · rw [if_pos hd] at h
      obtain ⟨p, hp, hne⟩ := read_digits_suffix (c :: s) 0
      by_cases hr : int_min ≤ (if neg = true then -((read_digits (c :: s) 0).1 : Int)
          else ((read_digits (c :: s) 0).1 : Int)) ∧
          (if neg = true then -((read_digits (c :: s) 0).1 : Int)
          else ((read_digits (c :: s) 0).1 : Int)) ≤ int_max
      · rw [if_pos hr] at h
        simp only [Option.some.injEq, Prod.mk.injEq] at h
        rw [← h.2]
        exact ⟨p, hp, hne c s rfl hd⟩
      · rw [if_neg hr] at h
        cases h
    · rw [if_neg hd] at h
      cases h

theorem extract_int_suffix (t r : Text) (v : Int) (h : extract_int t = some (v, r)) :
    ∃ p, t = p ++ r ∧ p ≠ [] := by
  have ht : t = t.takeWhile is_space ++ t.dropWhile is_space :=
    (List.takeWhile_append_dropWhile is_space t).symm
  unfold extract_int at h
  split at h
  · cases h
  · rename_i c r0 heq
    rw [heq] at ht
    split at h
    · obtain ⟨p, hp, _⟩ := extract_digits_suffix _ _ _ _ h
      refine ⟨t.takeWhile is_space ++ c :: p, ?_, by simp⟩
      rw [List.append_assoc, List.cons_append, ← hp]
      exact ht
    · split at h
      · obtain ⟨p, hp, _⟩ := extract_digits_suffix _ _ _ _ h
        refine ⟨t.takeWhile is_space ++ c :: p, ?_, by simp⟩
        rw [List.append_assoc, List.cons_append, ← hp]
        exact ht
      · obtain ⟨p, hp, hne⟩ := extract_digits_suffix _ _ _ _ h
        refine ⟨t.takeWhile is_space ++ p, ?_, by simp [hne]⟩
        rw [List.append_assoc, ← hp]
        exact ht

theorem extract_int_rest (t r : Text) (v : Int) (h : extract_int t = some (v, r)) :
    r.length < t.length ∧ ∀ c ∈ r, c ∈ t := by
  obtain ⟨p, hp, hne⟩ := extract_int_suffix t r v h
  have hl : 0 < p.length := List.length_pos.mpr hne
  refine ⟨by rw [hp, List.length_append]; omega, fun c hc => ?_⟩
  rw [hp]
  exact List.mem_append_right _ hc

/-- The bound of `token_ints` does not matter once it reaches the length of
the text. -/
theorem token_ints_fuel (fuel : Nat) :
    ∀ (t : Text) (fuel2 : Nat), t.length ≤ fuel → fuel ≤ fuel2 →
      token_ints fuel2 t = token_ints fuel t := by
  induction fuel with
  | zero =>
    intro t fuel2 h _
    have ht : t = [] := List.length_eq_zero.mp (Nat.le_zero.mp h)
    subst ht
    cases fuel2 <;> rfl
  | succ fuel ih =>
    intro t fuel2 h h2
    obtain ⟨f2, rfl⟩ : ∃ f2, fuel2 = f2 + 1 := ⟨fuel2 - 1, by omega⟩
    cases t with
    | nil => rfl
    | cons c t =>
      unfold token_ints
      simp only
      cases he : extract_int (c :: t) with
      | none => rfl
      | some p =>
        obtain ⟨v, r⟩ := p
        have hr := (extract_int_rest _ _ _ he).1
        simp only
        rw [ih r f2 (by omega) (by omega)]

theorem token_ints_none (t : Text) (hne : t ≠ []) (h : extract_int t = none) :
    token_ints t.length t = ([], false) := by
  obtain ⟨c, t, rfl⟩ := List.exists_cons_of_ne_nil hne
  rw [List.length_cons]
  unfold token_ints
  simp only
  rw [h]

theorem token_ints_some (t r : Text) (v : Int) (hne : t ≠ [])
    (h : extract_int t = some (v, r)) :
    token_ints t.length t = (v :: (token_ints r.length r).1, (token_ints r.length r).2) := by
  have hr := (extract_int_rest _ _ _ h).1
  obtain ⟨c, t, rfl⟩ := List.exists_cons_of_ne_nil hne
  rw [List.length_cons] at hr ⊢
  conv_lhs => rw [token_ints]
  rw [h]
  simp only
  rw [token_ints_fuel r.length r t.length (le_refl _) (by omega)]

theorem pending_ints_nil (rest : TokenStream) : pending_ints [] rest = stream_ints rest := by
  unfold pending_ints
  rfl

theorem pending_ints_none (t : Text) (rest : TokenStream) (hne : t ≠ [])
    (h : extract_int t = none) : pending_ints t rest = [] := by
  unfold pending_ints
  rw [token_ints_none t hne h]
  rfl

theorem pending_ints_some (t r : Text) (v : Int) (rest : TokenStream) (hne : t ≠ [])
    (h : extract_int t = some (v, r)) :
    pending_ints t rest = v :: pending_ints r rest := by
  unfold pending_ints
  rw [token_ints_some t r v hne h]
  simp only
  split <;> rfl

theorem stream_ints_cons (sep tok : Text) (rest : TokenStream) :
    stream_ints ((sep, tok) :: rest) = pending_ints tok rest := rfl

/-- One extraction inside a token: it fails exactly when no integer is
pending, and otherwise reads the first pending integer and stays inside the
same token. -/
theorem extract_pending (sep tok : Text) (rest : TokenStream) (tail : Text)
    (hs : ∀ c ∈ sep, is_space c = true) (hne : tok ≠ [])
    (htok : ∀ c ∈ tok, is_space c = false) (hw : well_separated false rest = true)
    (ht : ∀ c ∈ tail, is_space c = true) :
    (extract_int (sep ++ tok ++ (render_tokens rest ++ tail)) = none ∧
      pending_ints tok rest = []) ∨
    ∃ v r, extract_int (sep ++ tok ++ (render_tokens rest ++ tail))
        = some (v, r ++ (render_tokens rest ++ tail)) ∧
      pending_ints tok rest = v :: pending_ints r rest ∧
      ∀ c ∈ r, is_space c = false := by
  rw [extract_int_token sep tok _ hs hne htok (stop_after_token rest tail hw ht)]
  cases he : extract_int tok with
  | none => exact Or.inl ⟨rfl, pending_ints_none tok rest hne he⟩
  | some p =>
    obtain ⟨v, r⟩ := p
    exact Or.inr ⟨v, r, rfl, pending_ints_some tok r v rest hne he,
      fun c hc => htok c ((extract_int_rest tok r v he).2 c hc)⟩

/-- One extraction at any point of a token stream. -/
theorem extract_state (r : Text) (rest : TokenStream) (tail : Text)
    (hr : ∀ c ∈ r, is_space c = false) (hw : well_separated false rest = true)
    (ht : ∀ c ∈ tail, is_space c = true) :
    (extract_int (r ++ (render_tokens rest ++ tail)) = none ∧ pending_ints r rest = []) ∨
    ∃ v r2 rest2, extract_int (r ++ (render_tokens rest ++ tail))
        = some (v, r2 ++ (render_tokens rest2 ++ tail)) ∧
      pending_ints r rest = v :: pending_ints r2 rest2 ∧
      (∀ c ∈ r2, is_space c = false) ∧ well_separated false rest2 = true := by
  cases r with
  | nil =>
    rw [List.nil_append, pending_ints_nil]
    cases rest with
    | nil =>
      left
      rw [render_tokens, List.nil_append]
      exact ⟨extract_int_of_space tail ht, rfl⟩
    | cons t rest =>
      obtain ⟨sep, tok⟩ := t
      obtain ⟨h1, _, h3, h4, h5⟩ := well_separated_cons false sep tok rest hw
      rw [render_tokens, List.append_assoc, stream_ints_cons]
      rcases extract_pending sep tok rest tail h1 h3 h4 h5 ht with h | ⟨v, r2, e1, e2, e3⟩
      · exact Or.inl h
      · exact Or.inr ⟨v, r2, rest, e1, e2, e3, h5⟩
  | cons c r =>
    have h := extract_pending [] (c :: r) rest tail
      (fun c hc => absurd hc (List.not_mem_nil _)) (by simp) hr hw ht
    rw [List.nil_append] at h
    rcases h with h | ⟨v, r2, e1, e2, e3⟩
    · exact Or.inl h
    · exact Or.inr ⟨v, r2, rest, e1, e2, e3, hw⟩

/-- The element loop reads the pending integers in order and fails exactly
when fewer than `k` are pending. -/
theorem read_elements_pending (tail : Text) (ht : ∀ c ∈ tail, is_space c = true) (k : Nat) :
    ∀ (r : Text) (rest : TokenStream), (∀ c ∈ r, is_space c = false) →
      well_separated false rest = true →
      read_elements k (r ++ (render_tokens rest ++ tail))
        = if (pending_ints r rest).length < k then .error .not_enough_elements
          else .ok ((pending_ints r rest).take k) := by
  induction k with
  | zero =>
    intro r rest _ _
    rfl
  | succ k ih =>
    intro r rest hr hw
    rw [read_elements]
    rcases extract_state r rest tail hr hw ht with ⟨e1, e2⟩ | ⟨v, r2, rest2, e1, e2, e3, e4⟩
    · rw [e1, e2, List.length_nil, if_pos (Nat.succ_pos k)]
    · rw [e1, e2]
      simp only
      rw [ih r2 rest2 e3 e4, List.length_cons, List.take_succ_cons]
      by_cases hlt : (pending_ints r2 rest2).length < k
      · rw [if_pos hlt, if_pos (by omega)]
      · rw [if_neg hlt, if_neg (by omega)]

/-- The loader computes its result from the integers of the token stream. -/
theorem read_data_exact (ts : TokenStream) (tail : Text)
    (hw : well_separated true ts = true) (ht : ∀ c ∈ tail, is_space c = true) :
    read_data (some (render_tokens ts ++ tail))
      = match stream_ints ts with
        | [] => .error .invalid_size
        | n :: vs =>
          if n ≤ 0 then .error .invalid_size
          else if vs.length < n.toNat then .error .not_enough_elements
          else .ok (vs.take n.toNat) := by
  unfold read_data
  simp only
  cases ts with
  | nil =>
    rw [render_tokens, List.nil_append, extract_int_of_space tail ht]
    rfl
  | cons t rest =>
    obtain ⟨sep, tok⟩ := t
    obtain ⟨h1, _, h3, h4, h5⟩ := well_separated_cons true sep tok rest hw
    rw [render_tokens, List.append_assoc, stream_ints_cons]
    rcases extract_pending sep tok rest tail h1 h3 h4 h5 ht with ⟨e1, e2⟩ | ⟨n, r, e1, e2, e3⟩
    · rw [e1, e2]
    · rw [e1, e2]
      simp only
      by_cases hn : n ≤ 0
      · rw [if_pos hn, if_pos hn]
      · rw [if_neg hn, if_neg hn]
        exact read_elements_pending tail ht n.toNat r rest e3 h5

/-- The element loop fails when the tokens ahead are integers, fewer than the
`k` to read, and are followed by the end of the stream or by a token from
which no integer can be extracted. -/
theorem read_elements_stops (pre post : TokenStream) (tail : Text) (k : Nat)
    (hw : well_separated false (pre ++ post) = true) (ht : ∀ c ∈ tail, is_space c = true)
    (hv : ∀ t ∈ pre, token_int t.2 ≠ none) (hk : pre.length < k)
    (hp : post = [] ∨ ∃ sep t post2, post = (sep, t) :: post2 ∧ extract_int t = none) :
    read_elements k (render_tokens (pre ++ post) ++ tail) = .error .not_enough_elements := by
  induction pre generalizing k with
  | nil =>
    obtain ⟨k, rfl⟩ : ∃ k2, k = k2 + 1 := ⟨k - 1, by simp at hk; omega⟩
    rw [List.nil_append] at hw ⊢
    rw [read_elements]
    rcases hp with rfl | ⟨sep, t, post2, rfl, hnone⟩
    · rw [render_tokens, List.nil_append, extract_int_of_space tail ht]
    · rw [extract_int_stream false sep t post2 tail hw ht, hnone]
      rfl
  | cons t pre ih =>
    obtain ⟨sep, tok⟩ := t
    obtain ⟨k, rfl⟩ : ∃ k2, k = k2 + 1 := ⟨k - 1, by omega⟩
    rw [List.length_cons] at hk
    rw [List.cons_append] at hw ⊢
    have h5 := (well_separated_cons false sep tok (pre ++ post) hw).2.2.2.2
    obtain ⟨v, hv1⟩ := Option.ne_none_iff_exists'.mp (hv (sep, tok) (List.mem_cons_self _ _))
    rw [read_elements, extract_int_stream false sep tok (pre ++ post) tail hw ht,
      token_int_some tok v hv1]
    simp only [Option.map_some', List.nil_append]
    rw [ih k h5 (fun t ht2 => hv t (List.mem_cons_of_mem _ ht2)) (by omega)]

/-! ## What the loader returns -/

theorem extract_digits_range (neg : Bool) (s rest : Text) (x : Int)
    (h : extract_digits neg s = some (x, rest)) : int_min ≤ x ∧ x ≤ int_max := by
  cases s with
  | nil => cases h
  | cons c s =>
    unfold extract_digits at h
    simp only at h
    by_cases hd : is_digit c = true
    · rw [if_pos hd] at h
      by_cases hr : int_min ≤ (if neg = true then -((read_digits (c :: s) 0).1 : Int)
          else ((read_digits (c :: s) 0).1 : Int)) ∧
          (if neg = true then -((read_digits (c :: s) 0).1 : Int)
          else ((read_digits (c :: s) 0).1 : Int)) ≤ int_max
      · rw [if_pos hr] at h
        simp only [Option.some.injEq, Prod.mk.injEq] at h
        rw [← h.1]
        exact hr
      · rw [if_neg hr] at h
        cases h
    · rw [if_neg hd] at h
      cases h

theorem extract_int_range (s rest : Text) (x : Int) (h : extract_int s = some (x, rest)) :
    int_min ≤ x ∧ x ≤ int_max := by
  unfold extract_int at h
  split at h
  · cases h
  · split at h
    · exact extract_digits_range _ _ _ _ h
    · split at h
      · exact extract_digits_range _ _ _ _ h
      · exact extract_digits_range _ _ _ _ h

theorem read_elements_range (k : Nat) (s : Text) (vs : List Int)
    (h : read_elements k s = .ok vs) : ∀ x ∈ vs, int_min ≤ x ∧ x ≤ int_max := by
  induction k generalizing s vs with
  | zero =>
    rw [read_elements] at h
    cases h
    intro x hx
    exact absurd hx (List.not_mem_nil _)
  | succ k ih =>
    rw [read_elements] at h
    split at h
    · cases h
    · rename_i x rest hx
      split at h
      · cases h
      · rename_i xs hxs
        cases h
        intro y hy
        rcases List.mem_cons.mp hy with rfl | hy
        · exact extract_int_range _ _ _ hx
        · exact ih rest xs hxs y hy

/-- Every vector that `read_data` returns is a non-empty vector of `int`. -/
theorem read_data_is_int_vector (file : Option Text) (d : List Int)
    (h : read_data file = .ok d) : d ≠ [] ∧ is_int_vector d := by
  unfold read_data at h
  split at h
  · cases h
  · split at h
    · cases h
    · rename_i size rest heq
      split at h
      · cases h
      · rename_i hpos
        have hlen := read_elements_length _ _ _ h
        have hr := extract_int_range _ _ _ heq
        refine ⟨?_, ?_, read_elements_range _ _ _ h⟩
        · apply List.ne_nil_of_length_pos
          omega
        · omega

/-! ## Claims about the sort engines -/

/-- C1: for every vector (any length, duplicates allowed),
`odd_even_sort_sequential` leaves the vector in non-decreasing order, both
as a whole and for every adjacent pair; whichever test ends the phase loop,
the flag or the cap `phase < n`, the vector is in order. -/
theorem sequential_sort_sorted (arr : List Int) :
    List.Sorted (fun a b => a ≤ b) (odd_even_sort_sequential arr) ∧
    List.Chain' (fun a b => a ≤ b) (odd_even_sort_sequential arr) :=
  ⟨sorted_of_chain _ (sequential_run_chain arr), sequential_run_chain arr⟩

/-- C2: the vector after `odd_even_sort_sequential`, and after
`odd_even_sort_parallel` for every requested worker count and every valid
schedule, is a permutation of the input of the same length. -/
theorem sort_is_permutation (arr : List Int) (num_threads : Int) (omp_default : Nat)
    (sched : Schedule)
    (hv : ValidSchedule arr.length (resolve_threads num_threads omp_default) sched) :
    (odd_even_sort_sequential arr).Perm arr ∧
    (odd_even_sort_sequential arr).length = arr.length ∧
    (odd_even_sort_parallel arr num_threads omp_default sched).Perm arr ∧
    (odd_even_sort_parallel arr num_threads omp_default sched).length = arr.length := by
  have hs : (odd_even_sort_sequential arr).Perm arr := sequential_run_perm arr
  have hp : (odd_even_sort_parallel arr num_threads omp_default sched).Perm arr := by
    unfold odd_even_sort_parallel
    rw [parallel_run_eq arr num_threads omp_default sched hv]
    exact sequential_run_perm arr
  exact ⟨hs, hs.length_eq, hp, hp.length_eq⟩

/-- Witness for C2: a three-element vector, two requested workers, each
region run in decreasing index order. -/
theorem sort_is_permutation_witness :
    ValidSchedule [3, 1, 2].length (resolve_threads 2 4) (reversed_schedule 3 2) ∧
    (odd_even_sort_sequential [3, 1, 2]).Perm [3, 1, 2] ∧
    (odd_even_sort_sequential [3, 1, 2]).length = [3, 1, 2].length ∧
    (odd_even_sort_parallel [3, 1, 2] 2 4 (reversed_schedule 3 2)).Perm [3, 1, 2] ∧
    (odd_even_sort_parallel [3, 1, 2] 2 4 (reversed_schedule 3 2)).length = [3, 1, 2].length :=
  ⟨reversed_schedule_valid 3 2 (by decide),
    sort_is_permutation [3, 1, 2] 2 4 (reversed_schedule 3 2)
      (reversed_schedule_valid 3 2 (by decide))⟩

/-- C3: for every vector, every requested worker count (also `≤ 0`) and every
valid schedule, `odd_even_sort_parallel` ends in exactly the state of
`odd_even_sort_sequential`: same vector, same number of phases, same flag
and counters.  Hence its output is in non-decreasing order and is the same
for any two worker counts and schedules. -/
theorem parallel_refines_sequential (arr : List Int) (num_threads : Int) (omp_default : Nat)
    (sched : Schedule)
    (hv : ValidSchedule arr.length (resolve_threads num_threads omp_default) sched) :
    odd_even_sort_parallel_run arr num_threads omp_default sched
        = odd_even_sort_sequential_run arr ∧
    odd_even_sort_parallel arr num_threads omp_default sched = odd_even_sort_sequential arr ∧
    (odd_even_sort_parallel_run arr num_threads omp_default sched).phase
        = (odd_even_sort_sequential_run arr).phase ∧
    List.Sorted (fun a b => a ≤ b) (odd_even_sort_parallel arr num_threads omp_default sched) ∧
    (∀ (threads2 : Int) (default2 : Nat) (sched2 : Schedule),
      ValidSchedule arr.length (resolve_threads threads2 default2) sched2 →
      odd_even_sort_parallel arr threads2 default2 sched2
        = odd_even_sort_parallel arr num_threads omp_default sched) := by
  have h := parallel_run_eq arr num_threads omp_default sched hv
  refine ⟨h, ?_, ?_, ?_, ?_⟩
  · unfold odd_even_sort_parallel odd_even_sort_sequential
    rw [h]
  · rw [h]
  · unfold odd_even_sort_parallel
    rw [h]
    exact sorted_of_chain _ (sequential_run_chain arr)
  · intro threads2 default2 sched2 hv2
    unfold odd_even_sort_parallel
    rw [h, parallel_run_eq arr threads2 default2 sched2 hv2]

/-- Witness for C3: five elements in decreasing order, the default team of 4
requested by `num_threads = 0`. -/
theorem parallel_refines_sequential_witness :
    ValidSchedule [9, 8, 7, 6, 5].length (resolve_threads 0 4) (reversed_schedule 5 4) ∧
    odd_even_sort_parallel_run [9, 8, 7, 6, 5] 0 4 (reversed_schedule 5 4)
        = odd_even_sort_sequential_run [9, 8, 7, 6, 5] ∧
    odd_even_sort_parallel [9, 8, 7, 6, 5] 0 4 (reversed_schedule 5 4)
        = odd_even_sort_sequential [9, 8, 7, 6, 5] ∧
    (odd_even_sort_parallel_run [9, 8, 7, 6, 5] 0 4 (reversed_schedule 5 4)).phase
        = (odd_even_sort_sequential_run [9, 8, 7, 6, 5]).phase ∧
    List.Sorted (fun a b => a ≤ b)
      (odd_even_sort_parallel [9, 8, 7, 6, 5] 0 4 (reversed_schedule 5 4)) ∧
    (∀ (threads2 : Int) (default2 : Nat) (sched2 : Schedule),
      ValidSchedule [9, 8, 7, 6, 5].length (resolve_threads threads2 default2) sched2 →
      odd_even_sort_parallel [9, 8, 7, 6, 5] threads2 default2 sched2
        = odd_even_sort_parallel [9, 8, 7, 6, 5] 0 4 (reversed_schedule 5 4)) :=
  ⟨reversed_schedule_valid 5 4 (by decide),
    parallel_refines_sequential [9, 8, 7, 6, 5] 0 4 (reversed_schedule 5 4)
      (reversed_schedule_valid 5 4 (by decide))⟩

/-- C4, counterexample: on the two-element vector `[2, 1]` the phase loop runs
2 phases (one that swaps, one that detects convergence), more than `n - 1 = 1`. -/
theorem phase_bound_counterexample :
    2 ≤ [(2 : Int), 1].length ∧
    (odd_even_sort_sequential_run [2, 1]).phase = 2 ∧
    ¬ (odd_even_sort_sequential_run [2, 1]).phase ≤ [(2 : Int), 1].length - 1 := by
  decide

/-- C4, amended: for any input of length `n ≥ 2` the number of phases executed
(the final, convergence-detecting phase included) is at most `n`, and at most
`n - 1` once `n ≥ 4`; the same holds for the OpenMP variant under any valid
schedule. -/
theorem phase_bound (arr : List Int) (num_threads : Int) (omp_default : Nat)
    (sched : Schedule) (hn : 2 ≤ arr.length)
    (hv : ValidSchedule arr.length (resolve_threads num_threads omp_default) sched) :
    (odd_even_sort_sequential_run arr).phase ≤ arr.length ∧
    (4 ≤ arr.length → (odd_even_sort_sequential_run arr).phase ≤ arr.length - 1) ∧
    (odd_even_sort_parallel_run arr num_threads omp_default sched).phase ≤ arr.length ∧
    (4 ≤ arr.length →
      (odd_even_sort_parallel_run arr num_threads omp_default sched).phase ≤ arr.length - 1) := by
  rw [parallel_run_eq arr num_threads omp_default sched hv]
  have h := sequential_run_phase_le arr hn
  refine ⟨?_, ?_, ?_, ?_⟩ <;> omega

/-- Witness for C4 (amended): four elements in decreasing order take 3 phases. -/
theorem phase_bound_witness :
    2 ≤ [(4 : Int), 3, 2, 1].length ∧
    ValidSchedule [(4 : Int), 3, 2, 1].length (resolve_threads 2 1) (reversed_schedule 4 2) ∧
    (odd_even_sort_sequential_run [4, 3, 2, 1]).phase ≤ [(4 : Int), 3, 2, 1].length ∧
    (4 ≤ [(4 : Int), 3, 2, 1].length →
      (odd_even_sort_sequential_run [4, 3, 2, 1]).phase ≤ [(4 : Int), 3, 2, 1].length - 1) ∧
    (odd_even_sort_parallel_run [4, 3, 2, 1] 2 1 (reversed_schedule 4 2)).phase
      ≤ [(4 : Int), 3, 2, 1].length ∧
    (4 ≤ [(4 : Int), 3, 2, 1].length →
      (odd_even_sort_parallel_run [4, 3, 2, 1] 2 1 (reversed_schedule 4 2)).phase
        ≤ [(4 : Int), 3, 2, 1].length - 1) :=
  ⟨by decide, reversed_schedule_valid 4 2 (by decide),
    phase_bound [4, 3, 2, 1] 2 1 (reversed_schedule 4 2) (by decide)
      (reversed_schedule_valid 4 2 (by decide))⟩

/-- C5: on a vector already in non-decreasing order both sorts perform zero
swaps and return the vector unchanged; for length at least 2 exactly one
phase (phase 0) runs and the loop exits with the flag set.  Consequently
sorting the output of a sort changes nothing. -/
theorem sorted_input_one_phase (arr : List Int) (num_threads : Int) (omp_default : Nat)
    (sched : Schedule) (hs : List.Sorted (fun a b => a ≤ b) arr)
    (hv : ValidSchedule arr.length (resolve_threads num_threads omp_default) sched) :
    (odd_even_sort_sequential_run arr).arr = arr ∧
    (odd_even_sort_sequential_run arr).swaps = 0 ∧
    (2 ≤ arr.length → (odd_even_sort_sequential_run arr).phase = 1 ∧
      (odd_even_sort_sequential_run arr).is_sorted = true) ∧
    (odd_even_sort_parallel_run arr num_threads omp_default sched).arr = arr ∧
    (odd_even_sort_parallel_run arr num_threads omp_default sched).swaps = 0 ∧
    (2 ≤ arr.length →
      (odd_even_sort_parallel_run arr num_threads omp_default sched).phase = 1 ∧
      (odd_even_sort_parallel_run arr num_threads omp_default sched).is_sorted = true) ∧
    (∀ l : List Int,
      odd_even_sort_sequential (odd_even_sort_sequential l) = odd_even_sort_sequential l) ∧
    (∀ (l : List Int) (sched2 : Schedule),
      ValidSchedule l.length (resolve_threads num_threads omp_default) sched2 →
      odd_even_sort_parallel (odd_even_sort_parallel l num_threads omp_default sched2)
          num_threads omp_default sched2
        = odd_even_sort_parallel l num_threads omp_default sched2) := by
  have key : ∀ l : List Int, List.Chain' (fun a b => a ≤ b) l →
      (odd_even_sort_sequential_run l).arr = l ∧ (odd_even_sort_sequential_run l).swaps = 0 ∧
      (2 ≤ l.length → (odd_even_sort_sequential_run l).phase = 1 ∧
        (odd_even_sort_sequential_run l).is_sorted = true) := by
    intro l hc
    rcases Nat.lt_or_ge l.length 2 with h | h
    · rw [sequential_run_of_short l (by omega)]
      exact ⟨rfl, rfl, fun h2 => absurd h2 (by omega)⟩
    · rw [sequential_run_of_chain l h hc]
      exact ⟨rfl, rfl, fun _ => ⟨rfl, rfl⟩⟩
  rw [parallel_run_eq arr num_threads omp_default sched hv]
  obtain ⟨k1, k2, k3⟩ := key arr (chain_of_sorted arr hs)
  refine ⟨k1, k2, k3, k1, k2, k3, fun l => (key _ (sequential_run_chain l)).1, ?_⟩
  intro l sched2 hv2
  have e1 : odd_even_sort_parallel l num_threads omp_default sched2
      = odd_even_sort_sequential l := by
    unfold odd_even_sort_parallel odd_even_sort_sequential
    rw [parallel_run_eq l num_threads omp_default sched2 hv2]
  have hlen : (odd_even_sort_sequential l).length = l.length :=
    (sequential_run_perm l).length_eq
  rw [e1]
  unfold odd_even_sort_parallel
  rw [parallel_run_eq _ num_threads omp_default sched2 (by rw [hlen]; exact hv2)]
  exact (key _ (sequential_run_chain l)).1

/-- Witness for C5: a four-element vector in order, with a repeated value. -/
theorem sorted_input_one_phase_witness :
    List.Sorted (fun a b => a ≤ b) [(1 : Int), 2, 2, 5] ∧
    ValidSchedule [(1 : Int), 2, 2, 5].length (resolve_threads 3 1) (reversed_schedule 4 3) ∧
    (odd_even_sort_sequential_run [1, 2, 2, 5]).arr = [1, 2, 2, 5] ∧
    (odd_even_sort_sequential_run [1, 2, 2, 5]).swaps = 0 ∧
    (2 ≤ [(1 : Int), 2, 2, 5].length → (odd_even_sort_sequential_run [1, 2, 2, 5]).phase = 1 ∧
      (odd_even_sort_sequential_run [1, 2, 2, 5]).is_sorted = true) ∧
    (odd_even_sort_parallel_run [1, 2, 2, 5] 3 1 (reversed_schedule 4 3)).arr = [1, 2, 2, 5] ∧
    (odd_even_sort_parallel_run [1, 2, 2, 5] 3 1 (reversed_schedule 4 3)).swaps = 0 ∧
    (2 ≤ [(1 : Int), 2, 2, 5].length →
      (odd_even_sort_parallel_run [1, 2, 2, 5] 3 1 (reversed_schedule 4 3)).phase = 1 ∧
      (odd_even_sort_parallel_run [1, 2, 2, 5] 3 1 (reversed_schedule 4 3)).is_sorted = true) ∧
    (∀ l : List Int,
      odd_even_sort_sequential (odd_even_sort_sequential l) = odd_even_sort_sequential l) ∧
    (∀ (l : List Int) (sched2 : Schedule),
      ValidSchedule l.length (resolve_threads 3 1) sched2 →
      odd_even_sort_parallel (odd_even_sort_parallel l 3 1 sched2) 3 1 sched2
        = odd_even_sort_parallel l 3 1 sched2) :=
  ⟨by decide, reversed_schedule_valid 4 3 (by decide),
    sorted_input_one_phase [1, 2, 2, 5] 3 1 (reversed_schedule 4 3) (by decide)
      (reversed_schedule_valid 4 3 (by decide))⟩

/-- C6: on a vector of length 0 or 1, for every worker count and schedule,
both sorts return at once: the vector is unchanged, no phase runs, and no
comparison or swap is made.  The functions are total, so no error arises. -/
theorem short_input_untouched (arr : List Int) (num_threads : Int) (omp_default : Nat)
    (sched : Schedule) (h : arr.length ≤ 1) :
    odd_even_sort_sequential arr = arr ∧
    (odd_even_sort_sequential_run arr).phase = 0 ∧
    (odd_even_sort_sequential_run arr).comparisons = 0 ∧
    (odd_even_sort_sequential_run arr).swaps = 0 ∧
    odd_even_sort_parallel arr num_threads omp_default sched = arr ∧
    (odd_even_sort_parallel_run arr num_threads omp_default sched).phase = 0 ∧
    (odd_even_sort_parallel_run arr num_threads omp_default sched).comparisons = 0 ∧
    (odd_even_sort_parallel_run arr num_threads omp_default sched).swaps = 0 := by
  unfold odd_even_sort_sequential odd_even_sort_parallel
  rw [sequential_run_of_short arr h, parallel_run_of_short arr num_threads omp_default sched h]
  exact ⟨rfl, rfl, rfl, rfl, rfl, rfl, rfl, rfl⟩

/-- Witness for C6: a one-element vector, a negative worker count and a
schedule that runs nothing. -/
theorem short_input_untouched_witness :
    [(7 : Int)].length ≤ 1 ∧
    odd_even_sort_sequential [7] = [7] ∧
    (odd_even_sort_sequential_run [7]).phase = 0 ∧
    (odd_even_sort_sequential_run [7]).comparisons = 0 ∧
    (odd_even_sort_sequential_run [7]).swaps = 0 ∧
    odd_even_sort_parallel [7] (-1) 8 (fun _ _ => []) = [7] ∧
    (odd_even_sort_parallel_run [7] (-1) 8 (fun _ _ => [])).phase = 0 ∧
    (odd_even_sort_parallel_run [7] (-1) 8 (fun _ _ => [])).comparisons = 0 ∧
    (odd_even_sort_parallel_run [7] (-1) 8 (fun _ _ => [])).swaps = 0 :=
  ⟨by decide, short_input_untouched [7] (-1) 8 (fun _ _ => []) (by decide)⟩

/-! ## Claims about the files -/

/-- C7, counterexample: for the one-element vector `[5]` the written text is
`1`, `5`, then the time line at once; the line that follows the last element
is the time, not an empty line. -/
theorem write_results_no_blank_line :
    write_results true [5] "0.000001".toList = .ok "1\n5\n0.000001\n".toList ∧
    split_lines "1\n5\n0.000001\n".toList = ["1".toList, "5".toList, "0.000001".toList] ∧
    (split_lines "1\n5\n0.000001\n".toList).getD ([(5 : Int)].length + 1) [] ≠ [] ∧
    (split_lines "1\n5\n0.000001\n".toList).getD ([(5 : Int)].length + 2) []
      ≠ "0.000001".toList := by
  decide

/-- C7, amended: for every non-empty vector, `write_results` writes, in this
order, the size on the first line, each element on its own line, directly
after the last element the elapsed-time line, and (OpenMP variant only) the
worker count on a last line; no empty line comes in between. -/
theorem write_results_layout (data : List Int) (time_text : Text) (num_threads : Int)
    (hne : data ≠ []) (ht : ∀ c ∈ time_text, c ≠ '\n') :
    (∃ out, write_results true data time_text = .ok out ∧
      split_lines out = show_nat data.length :: (data.map show_int ++ [time_text])) ∧
    (∃ out, write_results_omp true data time_text num_threads = .ok out ∧
      split_lines out
        = show_nat data.length :: (data.map show_int ++ [time_text, show_int num_threads])) := by
  have hn : ∀ c ∈ show_nat data.length, c ≠ '\n' :=
    fun c hc => ((show_nat_props data.length).2.1 c hc).2.2
  have ht1 : split_lines (time_text ++ ['\n']) = [time_text] := by
    rw [split_lines_append time_text [] ht]
    rfl
  have ht2 : split_lines (time_text ++ '\n' :: (show_int num_threads ++ ['\n']))
      = [time_text, show_int num_threads] := by
    rw [split_lines_append time_text _ ht,
      split_lines_append _ [] (fun c hc => ((show_int_props num_threads).2 c hc).2)]
    rfl
  refine ⟨⟨_, write_results_text data time_text hne, ?_⟩,
    ⟨_, write_results_omp_text data time_text num_threads hne, ?_⟩⟩
  · rw [split_lines_append _ _ hn, split_lines_elements, ht1]
  · rw [split_lines_append _ _ hn, split_lines_elements, ht2]

/-- Witness for C7 (amended): three elements, one of them negative, 4 workers. -/
theorem write_results_layout_witness :
    ([3, -1, 2] : List Int) ≠ [] ∧ (∀ c ∈ "0.000012".toList, c ≠ '\n') ∧
    (∃ out, write_results true [3, -1, 2] "0.000012".toList = .ok out ∧
      split_lines out = show_nat ([3, -1, 2] : List Int).length ::
        (([3, -1, 2] : List Int).map show_int ++ ["0.000012".toList])) ∧
    (∃ out, write_results_omp true [3, -1, 2] "0.000012".toList 4 = .ok out ∧
      split_lines out = show_nat ([3, -1, 2] : List Int).length ::
        (([3, -1, 2] : List Int).map show_int ++ ["0.000012".toList, show_int 4])) :=
  ⟨by decide, by decide,
    write_results_layout [3, -1, 2] "0.000012".toList 4 (by decide) (by decide)⟩

/-- C8, counterexample: in the stream `1 5abc` the token after the count is not
an integer, yet `read_data` succeeds and returns `[5]`; in `2 1-2` only one
token follows the count 2, yet `read_data` returns `[1, -2]`. -/
theorem read_data_accepts_partial_tokens :
    well_separated true [([], "1".toList), (" ".toList, "5abc".toList)] = true ∧
    render_tokens [([], "1".toList), (" ".toList, "5abc".toList)] = "1 5abc".toList ∧
    [([], "1".toList), (" ".toList, "5abc".toList)].map (fun t => token_int t.2)
      = [some 1, none] ∧
    read_data (some "1 5abc".toList) = .ok [5] ∧
    well_separated true [([], "2".toList), (" ".toList, "1-2".toList)] = true ∧
    render_tokens [([], "2".toList), (" ".toList, "1-2".toList)] = "2 1-2".toList ∧
    read_data (some "2 1-2".toList) = .ok [1, -2] := by
  decide

/-- C8, amended: for every white-space separated token stream, `read_data`
succeeds iff the integers that extraction reads from the tokens in order
(each token read to its end, or up to a remainder from which no integer can
be extracted, where reading stops) begin with a count `n > 0` followed by at
least `n` integers, and it then returns exactly the first `n` of them in file
order.  In particular, if the first token is an integer `n > 0` and the next
`n` tokens are integers it returns those `n` integers.  It signals an error
when the stream is empty, when no integer can be extracted from the first
token, when the count read is `≤ 0` (whatever follows it in its token), and
when the tokens after the count are integers, fewer than `n`, and are followed
by the end of the stream or by a token from which no integer can be
extracted. -/
theorem read_data_contract (ts : TokenStream) (tail : Text)
    (hw : well_separated true ts = true) (ht : ∀ c ∈ tail, is_space c = true) :
    (∀ (n : Int) (vs : List Int), 0 < n → vs.length = n.toNat →
      ((ts.map Prod.snd).take (vs.length + 1)).map token_int = some n :: vs.map some →
      read_data (some (render_tokens ts ++ tail)) = .ok vs) ∧
    (∀ vs, read_data (some (render_tokens ts ++ tail)) = .ok vs →
      ∃ n rest, extract_int (render_tokens ts ++ tail) = some (n, rest) ∧ 0 < n ∧
        vs.length = n.toNat) ∧
    (read_data (some (render_tokens ts ++ tail))
      = match stream_ints ts with
        | [] => .error .invalid_size
        | n :: vs =>
          if n ≤ 0 then .error .invalid_size
          else if vs.length < n.toNat then .error .not_enough_elements
          else .ok (vs.take n.toNat)) ∧
    (∀ vs, read_data (some (render_tokens ts ++ tail)) = .ok vs ↔
      ∃ n more, stream_ints ts = n :: (vs ++ more) ∧ 0 < n ∧ vs.length = n.toNat) ∧
    (ts = [] → read_data (some (render_tokens ts ++ tail)) = .error .invalid_size) ∧
    (∀ sep tok rest, ts = (sep, tok) :: rest → extract_int tok = none →
      read_data (some (render_tokens ts ++ tail)) = .error .invalid_size) ∧
    (∀ sep tok rest n r, ts = (sep, tok) :: rest → extract_int tok = some (n, r) → n ≤ 0 →
      read_data (some (render_tokens ts ++ tail)) = .error .invalid_size) ∧
    (∀ sep tok pre post n, ts = (sep, tok) :: (pre ++ post) → token_int tok = some n → 0 < n →
      (∀ t ∈ pre, token_int t.2 ≠ none) → pre.length < n.toNat →
      (post = [] ∨ ∃ sep2 t2 post2, post = (sep2, t2) :: post2 ∧ extract_int t2 = none) →
      read_data (some (render_tokens ts ++ tail)) = .error .not_enough_elements) := by
  have hexact := read_data_exact ts tail hw ht
  refine ⟨fun n vs hn hlen hv => read_data_stream ts tail n vs hw ht hn hlen hv,
    ?_, hexact, ?_, ?_, ?_, ?_, ?_⟩
  · intro vs h
    unfold read_data at h
    simp only at h
    split at h
    · cases h
    · rename_i size rest heq
      split at h
      · cases h
      · rename_i hpos
        exact ⟨size, rest, heq, by omega, read_elements_length _ _ _ h⟩
  · intro vs
    rw [hexact]
    constructor
    · intro h
      split at h
      · cases h
      · rename_i n all hs
        by_cases hn : n ≤ 0
        · rw [if_pos hn] at h
          cases h
        · rw [if_neg hn] at h
          by_cases hl : all.length < n.toNat
          · rw [if_pos hl] at h
            cases h
          · rw [if_neg hl] at h
            cases h
            refine ⟨n, all.drop n.toNat, ?_, by omega, ?_⟩
            · rw [List.take_append_drop]
              exact hs
            · rw [List.length_take]
              omega
    · rintro ⟨n, more, hs, hn, hlen⟩
      rw [hs]
      simp only
      rw [if_neg (by omega), if_neg (by rw [List.length_append]; omega), ← hlen,
        List.take_left]
  · rintro rfl
    unfold read_data
    simp only
    rw [render_tokens, List.nil_append, extract_int_of_space tail ht]
  · rintro sep tok rest rfl hnone
    unfold read_data
    simp only
    rw [extract_int_stream true sep tok rest tail hw ht, hnone]
    rfl
  · rintro sep tok rest n r rfl hn hle
    unfold read_data
    simp only
    rw [extract_int_stream true sep tok rest tail hw ht, hn]
    simp only [Option.map_some']
    rw [if_pos hle]
  · rintro sep tok pre post n rfl hn hpos hall hlt hpost
    have h5 := (well_separated_cons true sep tok (pre ++ post) hw).2.2.2.2
    unfold read_data
    simp only
    rw [extract_int_stream true sep tok (pre ++ post) tail hw ht, token_int_some tok n hn]
    simp only [Option.map_some', List.nil_append]
    rw [if_neg (by omega)]
    exact read_elements_stops pre post tail n.toNat h5 ht hall hlt hpost

/-- Witness for C8 (amended): the stream `3 5 1 3` followed by a newline is
loaded; `2 1 x` and `0abc 1` are rejected. -/
theorem read_data_contract_witness :
    well_separated true
      [([], "3".toList), ("\n".toList, "5".toList), ("\n".toList, "1".toList),
        ("\n".toList, "3".toList)] = true ∧
    (∀ c ∈ "\n".toList, is_space c = true) ∧
    read_data (some (render_tokens
      [([], "3".toList), ("\n".toList, "5".toList), ("\n".toList, "1".toList),
        ("\n".toList, "3".toList)] ++ "\n".toList)) = .ok [5, 1, 3] ∧
    read_data (some (render_tokens
      ([([], "2".toList)] ++ ([(" ".toList, "1".toList)] ++ [(" ".toList, "x".toList)]))
        ++ [])) = .error .not_enough_elements ∧
    read_data (some (render_tokens [([], "0abc".toList), (" ".toList, "1".toList)] ++ []))
      = .error .invalid_size :=
  ⟨by decide, by decide,
    (read_data_contract
      [([], "3".toList), ("\n".toList, "5".toList), ("\n".toList, "1".toList),
        ("\n".toList, "3".toList)] "\n".toList (by decide) (by decide)).1 3 [5, 1, 3]
      (by decide) (by decide) (by decide),
    (read_data_contract
      ([([], "2".toList)] ++ ([(" ".toList, "1".toList)] ++ [(" ".toList, "x".toList)])) []
      (by decide) (by decide)).2.2.2.2.2.2.2 [] "2".toList [(" ".toList, "1".toList)]
      [(" ".toList, "x".toList)] 2 rfl (by decide) (by decide) (by decide) (by decide)
      (Or.inr ⟨" ".toList, "x".toList, [], rfl, by decide⟩),
    (read_data_contract [([], "0abc".toList), (" ".toList, "1".toList)] []
      (by decide) (by decide)).2.2.2.2.2.2.1 [] "0abc".toList [(" ".toList, "1".toList)]
      0 "abc".toList rfl (by decide) (by decide)⟩

/-- C9: for every well-formed input text (a count `n > 0` followed by `n`
integers), the sequential program exits with status 0 and writes the line
`n`, then the `n` input values in non-decreasing order one per line, then the
timing line. -/
theorem main_sequential_output (ts : TokenStream) (tail time_text : Text) (n : Int)
    (vs : List Int) (hw : well_separated true ts = true)
    (ht : ∀ c ∈ tail, is_space c = true) (hn : 0 < n) (hlen : vs.length = n.toNat)
    (hv : ((ts.map Prod.snd).take (vs.length + 1)).map token_int = some n :: vs.map some) :
    main_sequential (some (render_tokens ts ++ tail)) true time_text
      = (0, some (show_int n ++ '\n' ::
          (((odd_even_sort_sequential vs).map (fun x => show_int x ++ ['\n'])).flatten
            ++ (time_text ++ ['\n'])))) ∧
    List.Sorted (fun a b => a ≤ b) (odd_even_sort_sequential vs) ∧
    (odd_even_sort_sequential vs).Perm vs := by
  have hperm : (odd_even_sort_sequential vs).Perm vs := sequential_run_perm vs
  have hl : (odd_even_sort_sequential vs).length = vs.length := hperm.length_eq
  have hne : odd_even_sort_sequential vs ≠ [] := by
    apply List.ne_nil_of_length_pos
    omega
  refine ⟨?_, sorted_of_chain _ (sequential_run_chain vs), hperm⟩
  unfold main_sequential
  rw [read_data_stream ts tail n vs hw ht hn hlen hv]
  simp only
  rw [write_results_text _ time_text hne, hl, show_nat_eq_show_int,
    show ((vs.length : Nat) : Int) = n by omega]

/-- Witness for C9: the input `3\n5\n1\n3\n` gives `3\n1\n3\n5\n` and the timing
line. -/
theorem main_sequential_output_witness :
    main_sequential (some "3\n5\n1\n3\n".toList) true "0.000012".toList
      = (0, some "3\n1\n3\n5\n0.000012\n".toList) ∧
    List.Sorted (fun a b => a ≤ b) (odd_even_sort_sequential [5, 1, 3]) ∧
    (odd_even_sort_sequential [5, 1, 3]).Perm [5, 1, 3] :=
  main_sequential_output
    [([], "3".toList), ("\n".toList, "5".toList), ("\n".toList, "1".toList),
      ("\n".toList, "3".toList)] "\n".toList "0.000012".toList 3 [5, 1, 3]
    (by decide) (by decide) (by decide) (by decide) (by decide)

/-- C10: for every non-empty vector of `int`, every elapsed-time text and every
worker count, `read_data` on the text written by either `write_results`
succeeds and returns exactly the vector; the time and worker-count lines
that follow the elements are not read. -/
theorem read_data_write_results (d : List Int) (time_text : Text) (num_threads : Int)
    (hne : d ≠ []) (hint : is_int_vector d) :
    (∃ out, write_results true d time_text = .ok out ∧ read_data (some out) = .ok d) ∧
    (∃ out, write_results_omp true d time_text num_threads = .ok out ∧
      read_data (some out) = .ok d) :=
  ⟨⟨_, write_results_text d time_text hne, read_data_written d _ hne hint⟩,
    ⟨_, write_results_omp_text d time_text num_threads hne, read_data_written d _ hne hint⟩⟩

/-- Witness for C10: three elements, one of them negative, and a time text
that begins with a digit. -/
theorem read_data_write_results_witness :
    ([3, -1, 2] : List Int) ≠ [] ∧ is_int_vector [3, -1, 2] ∧
    (∃ out, write_results true [3, -1, 2] "0.000012".toList = .ok out ∧
      read_data (some out) = .ok [3, -1, 2]) ∧
    (∃ out, write_results_omp true [3, -1, 2] "0.000012".toList 4 = .ok out ∧
      read_data (some out) = .ok [3, -1, 2]) :=
  ⟨by decide, ⟨by decide, by decide⟩,
    read_data_write_results [3, -1, 2] "0.000012".toList 4 (by decide)
      ⟨by decide, by decide⟩⟩

/-! ## Accesses stay inside the vector -/

theorem compare_swap_checked_eq (st : SortState) (i : Nat) (h : i + 1 < st.arr.length) :
    compare_swap_checked st i = some (compare_swap st i) := by
  have h0 : i < st.arr.length := by omega
  have e0 : st.arr[i]? = some st.arr[i] := List.getElem?_eq_getElem h0
  have e1 : st.arr[i + 1]? = some st.arr[i + 1] := List.getElem?_eq_getElem h
  have d0 : st.arr.getD i 0 = st.arr[i] := List.getD_eq_getElem _ _ h0
  have d1 : st.arr.getD (i + 1) 0 = st.arr[i + 1] := List.getD_eq_getElem _ _ h
  unfold compare_swap_checked compare_swap
  rw [e0, e1, d0, d1]
  simp only
  split <;> rfl

theorem compare_swap_length (st : SortState) (i : Nat) :
    (compare_swap st i).arr.length = st.arr.length := by
  rw [compare_swap_eq]
  exact cas_length st.arr i

theorem sub_pass_loop_length (n fuel i : Nat) (st : SortState) :
    (sub_pass_loop n fuel i st).arr.length = st.arr.length := by
  rw [sub_pass_loop_eq_foldl, foldl_compare_swap_arr, foldl_cas_length]

/-- The test `i < n - 1` of the inner loop keeps both accesses of its body
inside a vector of length `n`. -/
theorem sub_pass_loop_checked_eq (n fuel i : Nat) (st : SortState) (hn : st.arr.length = n) :
    sub_pass_loop_checked n fuel i st = some (sub_pass_loop n fuel i st) := by
  induction fuel generalizing i st with
  | zero => rfl
  | succ fuel ih =>
    unfold sub_pass_loop_checked sub_pass_loop
    split
    · rename_i hi
      rw [compare_swap_checked_eq st i (by omega), Option.some_bind]
      exact ih (i + 2) _ (by rw [compare_swap_length, hn])
    · rfl

theorem phase_body_checked_eq (n : Nat) (st : SortState) (hn : st.arr.length = n) :
    phase_body_checked n st = some (phase_body n st) := by
  have h1 := sub_pass_loop_checked_eq n n 1 { st with is_sorted := true } hn
  have h0 := sub_pass_loop_checked_eq n n 0 (sub_pass_loop n n 1 { st with is_sorted := true })
    (by rw [sub_pass_loop_length]; exact hn)
  unfold phase_body_checked phase_body odd_pass even_pass
  rw [h1, Option.some_bind, h0, Option.some_bind]

theorem phase_loop_checked_eq (n fuel : Nat) (st : SortState) (hn : st.arr.length = n) :
    phase_loop_checked n fuel st = some (phase_loop n fuel st) := by
  induction fuel generalizing st with
  | zero => rfl
  | succ fuel ih =>
    unfold phase_loop_checked phase_loop
    split
    · rw [phase_body_checked_eq n st hn, Option.some_bind]
      exact ih _ (by rw [phase_body_length, hn])
    · rfl

theorem sequential_checked_eq (arr : List Int) :
    odd_even_sort_sequential_checked arr = some (odd_even_sort_sequential_run arr) := by
  unfold odd_even_sort_sequential_checked odd_even_sort_sequential_run
  simp only
  split
  · rfl
  · exact phase_loop_checked_eq _ _ _ rfl

theorem region_step_checked_eq (r : RegionState) (e : Nat × Nat)
    (h : e.2 + 1 < r.st.arr.length) : region_step_checked r e = some (region_step r e) := by
  have h1 := compare_swap_checked_eq { r.st with is_sorted := r.priv e.1 } e.2 h
  unfold region_step_checked region_step
  rw [h1]
  rfl

theorem region_step_length (r : RegionState) (e : Nat × Nat) :
    (region_step r e).st.arr.length = r.st.arr.length := by
  unfold region_step
  exact compare_swap_length _ e.2

theorem region_run_checked_eq (ex : Execution) (r : RegionState)
    (h : ∀ e ∈ ex, e.2 + 1 < r.st.arr.length) :
    region_run_checked ex r = some (ex.foldl region_step r) := by
  induction ex generalizing r with
  | nil => rfl
  | cons e ex ih =>
    rw [region_run_checked, region_step_checked_eq r e (h e (List.mem_cons_self _ _)),
      Option.some_bind, List.foldl_cons]
    exact ih _ (fun e' he' => by
      rw [region_step_length]; exact h e' (List.mem_cons_of_mem _ he'))

theorem parallel_region_checked_eq (n s team : Nat) (ex : Execution) (st : SortState)
    (hn : st.arr.length = n) (hp : (ex.map Prod.snd).Perm (loop_indices n n s)) :
    parallel_region_checked team ex st = some (parallel_region team ex st) := by
  unfold parallel_region_checked parallel_region
  rw [region_run_checked_eq ex _ (fun e he => by
    have hm : e.2 ∈ loop_indices n n s := hp.subset (List.mem_map_of_mem Prod.snd he)
    rw [mem_pass_indices] at hm
    simp only
    omega)]
  rfl

theorem phase_body_parallel_checked_eq (n team : Nat) (sched : Schedule) (st : SortState)
    (hn : st.arr.length = n) (hv : ValidSchedule n team sched) :
    phase_body_parallel_checked team sched st = some (phase_body_parallel team sched st) := by
  obtain ⟨p1, p0, w1, w0⟩ := hv st.phase
  have h1 := parallel_region_checked_eq n 1 team (sched st.phase true)
    { st with is_sorted := true } hn p1
  have h0 := parallel_region_checked_eq n 0 team (sched st.phase false)
    (parallel_region team (sched st.phase true) { st with is_sorted := true })
    (by rw [parallel_region_eq n 1 team _ _ p1 w1, sub_pass_loop_length]; exact hn) p0
  unfold phase_body_parallel_checked phase_body_parallel
  rw [h1, Option.some_bind, h0, Option.some_bind]

theorem phase_loop_parallel_checked_eq (n team : Nat) (sched : Schedule) (fuel : Nat)
    (st : SortState) (hn : st.arr.length = n) (hv : ValidSchedule n team sched) :
    phase_loop_parallel_checked n team sched fuel st
      = some (phase_loop_parallel n team sched fuel st) := by
  induction fuel generalizing st with
  | zero => rfl
  | succ fuel ih =>
    unfold phase_loop_parallel_checked phase_loop_parallel
    split
    · rw [phase_body_parallel_checked_eq n team sched st hn hv, Option.some_bind]
      exact ih _ (by rw [phase_body_parallel_eq n team sched st hv, phase_body_length, hn])
    · rfl

theorem parallel_checked_eq (arr : List Int) (num_threads : Int) (omp_default : Nat)
    (sched : Schedule)
    (hv : ValidSchedule arr.length (resolve_threads num_threads omp_default) sched) :
    odd_even_sort_parallel_checked arr num_threads omp_default sched
      = some (odd_even_sort_parallel_run arr num_threads omp_default sched) := by
  unfold odd_even_sort_parallel_checked odd_even_sort_parallel_run
  simp only
  split
  · rfl
  · exact phase_loop_parallel_checked_eq _ _ _ _ _ rfl hv

/-! ## Swaps and the flag -/

theorem compare_swap_swaps_le (st : SortState) (i : Nat) :
    st.swaps ≤ (compare_swap st i).swaps := by
  rw [compare_swap_eq]
  exact Nat.le_add_right _ _

theorem foldl_compare_swap_swaps_le (is : List Nat) (st : SortState) :
    st.swaps ≤ (is.foldl compare_swap st).swaps := by
  induction is generalizing st with
  | nil => exact le_refl _
  | cons i is ih => exact le_trans (compare_swap_swaps_le st i) (ih _)

/-- A sequence of compare-and-swaps that leaves the swap counter unchanged
found every compared pair in order. -/
theorem foldl_compare_swap_swaps_eq (is : List Nat) (st : SortState)
    (h : (is.foldl compare_swap st).swaps = st.swaps) :
    ∀ i ∈ is, st.arr.getD i 0 ≤ st.arr.getD (i + 1) 0 := by
  induction is generalizing st with
  | nil => intro i hi; exact absurd hi (List.not_mem_nil _)
  | cons i is ih =>
    rw [List.foldl_cons] at h
    have h1 := foldl_compare_swap_swaps_le is (compare_swap st i)
    have h2 := compare_swap_swaps_le st i
    have e1 : (compare_swap st i).swaps = st.swaps := by omega
    have hle : st.arr.getD i 0 ≤ st.arr.getD (i + 1) 0 := by
      by_contra hc
      rw [compare_swap_eq] at e1
      simp only at e1
      rw [if_pos (not_le.mp hc)] at e1
      omega
    have e2 : (compare_swap st i).arr = st.arr := by
      rw [compare_swap_eq]
      simp only [cas]
      rw [if_neg (not_lt.mpr hle)]
    have h3 := ih (compare_swap st i) (by rw [h, e1])
    rw [e2] at h3
    intro j hj
    rcases List.mem_cons.mp hj with rfl | hj
    · exact hle
    · exact h3 j hj

/-- A phase leaves the swap counter unchanged exactly when it ends with the
flag set. -/
theorem phase_body_swaps (n : Nat) (st : SortState) (hn : st.arr.length = n) :
    (phase_body n st).swaps = st.swaps ↔ (phase_body n st).is_sorted = true := by
  constructor
  · intro h
    rw [phase_body_eq] at h
    simp only at h
    have h1 := foldl_compare_swap_swaps_le (loop_indices n n 1) (set_flag st true)
    have h2 := foldl_compare_swap_swaps_le (loop_indices n n 0)
      ((loop_indices n n 1).foldl compare_swap (set_flag st true))
    have hs : (set_flag st true).swaps = st.swaps := rfl
    have a1 := foldl_compare_swap_swaps_eq (loop_indices n n 1) (set_flag st true) (by omega)
    have e1 := foldl_compare_swap_of_le _ _ a1
    have a0 := foldl_compare_swap_swaps_eq (loop_indices n n 0)
      ((loop_indices n n 1).foldl compare_swap (set_flag st true)) (by omega)
    rw [e1] at a0
    have hc : List.Chain' (fun a b => a ≤ b) st.arr := by
      rw [chain_iff_getD]
      intro i hi
      rcases Nat.mod_two_eq_zero_or_one i with hpar | hpar
      · exact a0 i ((mem_pass_indices n 0 i).mpr ⟨Nat.zero_le _, by omega, by omega⟩)
      · exact a1 i ((mem_pass_indices n 1 i).mpr ⟨by omega, by omega, by omega⟩)
    rw [phase_body_of_chain n st hn hc]
  · intro h
    rw [phase_body_of_chain n st hn (phase_body_flag n st hn h)]

/-- Once a vector is in order, any number of further phases leaves the vector
and the swap counter as they are. -/
theorem iterate_phase_body_of_chain (n k : Nat) (st : SortState) (hn : st.arr.length = n)
    (hc : List.Chain' (fun a b => a ≤ b) st.arr) :
    ((phase_body n)^[k] st).arr = st.arr ∧ ((phase_body n)^[k] st).swaps = st.swaps := by
  induction k with
  | zero => exact ⟨rfl, rfl⟩
  | succ k ih =>
    rw [Function.iterate_succ_apply']
    obtain ⟨e1, e2⟩ := ih
    rw [phase_body_of_chain n _ (by rw [e1]; exact hn) (by rw [e1]; exact hc)]
    exact ⟨e1, e2⟩

/-! ## Phases without the early exit -/

theorem iterate_phase_body_run (n k : Nat) (l : List Int) (st : SortState)
    (h : st.arr = run_passes n (2 * st.phase) l) :
    ((phase_body n)^[k] st).phase = st.phase + k ∧
    ((phase_body n)^[k] st).arr = run_passes n (2 * (st.phase + k)) l := by
  induction k with
  | zero => exact ⟨rfl, h⟩
  | succ k ih =>
    rw [Function.iterate_succ_apply']
    obtain ⟨e1, e2⟩ := ih
    refine ⟨by rw [phase_body_phase, e1]; omega, ?_⟩
    have := phase_body_arr_run n (st.phase + k) l _ e2
    rw [this]
    congr 1

/-! ## The index list of a sub-pass -/

theorem loop_indices_sorted (n fuel i : Nat) :
    List.Sorted (fun a b => a < b) (loop_indices n fuel i) := by
  induction fuel generalizing i with
  | zero => exact List.sorted_nil
  | succ fuel ih =>
    unfold loop_indices
    split
    · rw [List.sorted_cons]
      refine ⟨fun j hj => ?_, ih (i + 2)⟩
      obtain ⟨k, _, rfl, _⟩ := (mem_loop_indices n fuel (i + 2) j).mp hj
      omega
    · exact List.sorted_nil

theorem loop_indices_nodup (n fuel i : Nat) : (loop_indices n fuel i).Nodup :=
  (loop_indices_sorted n fuel i).nodup

/-! ## The generator -/

/-- The value loop writes each value on a line of its own once the newline
that follows the loop is counted in. -/
theorem generate_loop_lines (size : Int) (distrib : Nat → Int) (fuel i : Nat)
    (hf : fuel ≠ 0) (hs : (i : Int) + (fuel : Int) = size) :
    generate_loop size distrib fuel i ++ ['\n']
      = (((List.range' i fuel).map distrib).map (fun x => show_int x ++ ['\n'])).flatten := by
  induction fuel generalizing i with
  | zero => exact absurd rfl hf
  | succ fuel ih =>
    rw [generate_loop, if_pos (by omega), List.range'_succ]
    cases fuel with
    | zero =>
      rw [if_pos (by omega)]
      simp [generate_loop]
    | succ fuel =>
      have := ih (i + 1) (by omega) (by push_cast; push_cast at hs; omega)
      rw [if_neg (by push_cast at hs; omega)]
      simp only [List.map_cons, List.flatten_cons, List.append_assoc]
      rw [← this]

theorem generate_data_text (file : Option Text) (draw : Int → Int → Nat → Int)
    (size min_val max_val : Int) (hs : 0 < size) :
    generate_data true file draw size min_val max_val
      = (none, some (show_int size ++ '\n' ::
          (((List.range size.toNat).map (draw min_val max_val)).map
            (fun x => show_int x ++ ['\n'])).flatten)) := by
  have hne : size.toNat ≠ 0 := by omega
  have h := generate_loop_lines size (draw min_val max_val) size.toNat 0 hne (by omega)
  unfold generate_data open_output
  rw [if_neg (by omega), if_pos rfl, List.range_eq_range', ← h]
  simp only [List.append_assoc, List.singleton_append, List.cons_append, List.nil_append]

/-- The size guard of `generate_data` throws before the stream is constructed:
the exception is the guard's and the file on disk is as before, whether or
not the file could have been opened. -/
theorem generate_data_fails (can_open : Bool) (file : Option Text)
    (draw : Int → Int → Nat → Int) (size min_val max_val : Int) (hs : size ≤ 0) :
    generate_data can_open file draw size min_val max_val
      = (some .size_not_positive, file) := by
  unfold generate_data
  rw [if_pos hs]

theorem generate_data_cannot_open (file : Option Text) (draw : Int → Int → Nat → Int)
    (size min_val max_val : Int) (hs : 0 < size) :
    generate_data false file draw size min_val max_val
      = (some .cannot_open_output, file) := by
  unfold generate_data open_output
  rw [if_neg (by omega)]
  rfl

theorem main_generate_parsed (file_arg ts tmin tmax : Text) (can_open : Bool)
    (file : Option Text) (draw : Int → Int → Nat → Int) (size min_val max_val : Int)
    (hs : stoi ts = some size) (hmin : stoi tmin = some min_val)
    (hmax : stoi tmax = some max_val) :
    main_generate [file_arg, ts, tmin, tmax] can_open file draw
      = if min_val > max_val then (1, file)
        else
          match generate_data can_open file draw size min_val max_val with
          | (some _, after) => (1, after)
          | (none, after) => (0, after) := by
  unfold main_generate
  simp only [hs, optional_argument, List.getElem?_cons_zero, List.getElem?_cons_succ, hmin, hmax]

theorem main_generate_default (file_arg ts : Text) (can_open : Bool) (file : Option Text)
    (draw : Int → Int → Nat → Int) (size : Int) (hs : stoi ts = some size) :
    main_generate [file_arg, ts] can_open file draw
      = match generate_data can_open file draw size 0 10000 with
        | (some _, after) => (1, after)
        | (none, after) => (0, after) := by
  unfold main_generate
  simp only [hs, optional_argument, List.getElem?_nil]
  rfl

theorem generated_lines (size : Int) (values : List Int) :
    split_lines (show_int size ++ '\n' ::
        (values.map (fun x => show_int x ++ ['\n'])).flatten)
      = show_int size :: values.map show_int := by
  have := split_lines_elements values []
  rw [List.append_nil] at this
  rw [split_lines_append _ _ (fun c hc => ((show_int_props size).2 c hc).2), this]
  simp [split_lines]

/-! ## Claims about the generator, the phases and the accesses -/

/-- C11: for all integer arguments `size`, `min`, `max`, the generate command
exits with status 1 whenever `size ≤ 0` or `min > max`, and it does so before
the output file is opened: the file on disk is exactly as before the run
(neither created nor truncated), whether or not it could have been opened,
and for `size ≤ 0` the exception is the one of the size guard of
`generate_data`, not the one of a failed open.  When `size > 0` and
`min ≤ max` and the file can be opened the command exits with status 0 and
the file holds the line `size` followed by exactly `size` value lines; when
the file cannot be opened it exits with status 1 and leaves the disk as it
was.  The same holds with the default range when only `size` is given. -/
theorem generate_contract (file_arg ts tmin tmax : Text) (draw : Int → Int → Nat → Int)
    (size min_val max_val : Int) (hs : stoi ts = some size)
    (hmin : stoi tmin = some min_val) (hmax : stoi tmax = some max_val) :
    (size ≤ 0 ∨ min_val > max_val →
      ∀ (can_open : Bool) (file : Option Text),
        main_generate [file_arg, ts, tmin, tmax] can_open file draw = (1, file)) ∧
    (size ≤ 0 →
      ∀ (can_open : Bool) (file : Option Text),
        generate_data can_open file draw size min_val max_val
          = (some .size_not_positive, file)) ∧
    (0 < size → min_val ≤ max_val →
      ∀ file : Option Text,
        ∃ out, main_generate [file_arg, ts, tmin, tmax] true file draw = (0, some out) ∧
          split_lines out = show_int size ::
            (List.range size.toNat).map (fun i => show_int (draw min_val max_val i)) ∧
          (split_lines out).length = size.toNat + 1) ∧
    (0 < size → min_val ≤ max_val →
      ∀ file : Option Text,
        main_generate [file_arg, ts, tmin, tmax] false file draw = (1, file)) ∧
    (size ≤ 0 →
      ∀ (can_open : Bool) (file : Option Text),
        main_generate [file_arg, ts] can_open file draw = (1, file)) ∧
    (0 < size →
      ∀ file : Option Text,
        ∃ out, main_generate [file_arg, ts] true file draw = (0, some out) ∧
          split_lines out = show_int size ::
            (List.range size.toNat).map (fun i => show_int (draw 0 10000 i))) := by
  have key : ∀ lo hi : Int,
      split_lines (show_int size ++ '\n' ::
        (((List.range size.toNat).map (draw lo hi)).map
          (fun x => show_int x ++ ['\n'])).flatten)
        = show_int size :: (List.range size.toNat).map (fun i => show_int (draw lo hi i)) := by
    intro lo hi
    rw [generated_lines, List.map_map]
    rfl
  refine ⟨?_, ?_, ?_, ?_, ?_, ?_⟩
  · intro h can_open file
    rw [main_generate_parsed file_arg ts tmin tmax can_open file draw size min_val max_val
      hs hmin hmax]
    by_cases hm : min_val > max_val
    · rw [if_pos hm]
    · rw [if_neg hm, generate_data_fails can_open file draw size min_val max_val (by omega)]
  · intro h can_open file
    exact generate_data_fails can_open file draw size min_val max_val h
  · intro hpos hle file
    refine ⟨show_int size ++ '\n' ::
      (((List.range size.toNat).map (draw min_val max_val)).map
        (fun x => show_int x ++ ['\n'])).flatten, ?_, key min_val max_val, ?_⟩
    · rw [main_generate_parsed file_arg ts tmin tmax true file draw size min_val max_val
        hs hmin hmax, if_neg (by omega), generate_data_text file draw size min_val max_val hpos]
    · rw [key]
      simp
  · intro hpos hle file
    rw [main_generate_parsed file_arg ts tmin tmax false file draw size min_val max_val
      hs hmin hmax, if_neg (by omega),
      generate_data_cannot_open file draw size min_val max_val hpos]
  · intro h can_open file
    rw [main_generate_default file_arg ts can_open file draw size hs,
      generate_data_fails can_open file draw size 0 10000 h]
  · intro hpos file
    refine ⟨show_int size ++ '\n' ::
      (((List.range size.toNat).map (draw 0 10000)).map
        (fun x => show_int x ++ ['\n'])).flatten, ?_, key 0 10000⟩
    rw [main_generate_default file_arg ts true file draw size hs,
      generate_data_text file draw size 0 10000 hpos]

/-- Witness for C11: `generate f 0 5 4` leaves an existing file `old` as it is,
also when the file could be opened; `generate f 3 0 9` with the values 0, 1, 2
replaces it by four lines. -/
theorem generate_contract_witness :
    stoi "0".toList = some 0 ∧ stoi "5".toList = some 5 ∧ stoi "4".toList = some 4 ∧
    (∀ (can_open : Bool) (file : Option Text),
      main_generate ["f".toList, "0".toList, "5".toList, "4".toList] can_open file
        (fun lo _ i => lo + i) = (1, file)) ∧
    main_generate ["f".toList, "0".toList, "5".toList, "4".toList] true (some "old".toList)
      (fun lo _ i => lo + i) = (1, some "old".toList) ∧
    (∀ file : Option Text,
      ∃ out, main_generate ["f".toList, "3".toList, "0".toList, "9".toList] true file
          (fun lo _ i => lo + i) = (0, some out) ∧
        split_lines out = show_int 3 ::
          (List.range (3 : Int).toNat).map
            (fun i => show_int ((fun (lo _ : Int) (i : Nat) => lo + (i : Int)) 0 9 i)) ∧
        (split_lines out).length = (3 : Int).toNat + 1) :=
  ⟨by decide, by decide, by decide,
    (generate_contract "f".toList "0".toList "5".toList "4".toList (fun lo _ i => lo + i)
      0 5 4 (by decide) (by decide) (by decide)).1 (Or.inl (by decide)),
    (generate_contract "f".toList "0".toList "5".toList "4".toList (fun lo _ i => lo + i)
      0 5 4 (by decide) (by decide) (by decide)).1 (Or.inl (by decide)) true
      (some "old".toList),
    (generate_contract "f".toList "3".toList "0".toList "9".toList (fun lo _ i => lo + i)
      3 0 9 (by decide) (by decide) (by decide)).2.2.1 (by decide) (by decide)⟩

/-- C12: one phase (odd sub-pass then even sub-pass) ends with the flag set iff
no swap was made in either sub-pass, and iff the vector entering the phase
is in non-decreasing order; after such a phase the vector is unchanged and no
later phase swaps anything.  The same holds for a phase of the OpenMP
variant under a valid schedule. -/
theorem phase_flag_iff (n team : Nat) (sched : Schedule) (st : SortState)
    (hn : st.arr.length = n) (hv : ValidSchedule n team sched) :
    ((phase_body n st).is_sorted = true ↔ (phase_body n st).swaps = st.swaps) ∧
    ((phase_body n st).is_sorted = true ↔ List.Sorted (fun a b => a ≤ b) st.arr) ∧
    ((phase_body n st).is_sorted = true →
      (phase_body n st).arr = st.arr ∧
      ∀ k, ((phase_body n)^[k] (phase_body n st)).arr = st.arr ∧
        ((phase_body n)^[k] (phase_body n st)).swaps = st.swaps) ∧
    ((phase_body_parallel team sched st).is_sorted = true
      ↔ (phase_body_parallel team sched st).swaps = st.swaps) ∧
    ((phase_body_parallel team sched st).is_sorted = true
      ↔ List.Sorted (fun a b => a ≤ b) st.arr) := by
  have a1 : (phase_body n st).is_sorted = true ↔ (phase_body n st).swaps = st.swaps :=
    (phase_body_swaps n st hn).symm
  have a2 : (phase_body n st).is_sorted = true ↔ List.Sorted (fun a b => a ≤ b) st.arr := by
    constructor
    · intro h
      exact sorted_of_chain _ (phase_body_flag n st hn h)
    · intro h
      rw [phase_body_of_chain n st hn (chain_of_sorted _ h)]
  rw [phase_body_parallel_eq n team sched st hv]
  refine ⟨a1, a2, ?_, a1, a2⟩
  intro h
  have hc := phase_body_flag n st hn h
  have e := phase_body_of_chain n st hn hc
  have harr : (phase_body n st).arr = st.arr := by rw [e]
  have hsw : (phase_body n st).swaps = st.swaps := by rw [e]
  refine ⟨harr, fun k => ?_⟩
  obtain ⟨k1, k2⟩ := iterate_phase_body_of_chain n k (phase_body n st)
    (by rw [harr]; exact hn) (by rw [harr]; exact hc)
  exact ⟨by rw [k1, harr], by rw [k2, hsw]⟩

/-- Witness for C12: a phase on the vector `[1, 2, 3]`. -/
theorem phase_flag_iff_witness :
    (init_state [1, 2, 3]).arr.length = 3 ∧ ValidSchedule 3 2 (reversed_schedule 3 2) ∧
    ((phase_body 3 (init_state [1, 2, 3])).is_sorted = true
      ↔ (phase_body 3 (init_state [1, 2, 3])).swaps = (init_state [1, 2, 3]).swaps) :=
  ⟨by decide, reversed_schedule_valid 3 2 (by decide),
    (phase_flag_iff 3 2 (reversed_schedule 3 2) (init_state [1, 2, 3]) (by decide)
      (reversed_schedule_valid 3 2 (by decide))).1⟩

/-- C13: the indices of a sub-pass are `s, s + 2, s + 4, ...` below `n - 1`, each
once, and the pairs `{i, i + 1}` of two of them never overlap; hence running
the compare-and-swaps of the sub-pass in any order gives the state (vector,
flag, counters) that the ascending loop gives. -/
theorem sub_pass_order_irrelevant (n s : Nat) (is : List Nat) (st : SortState)
    (hp : is.Perm (loop_indices n n s)) :
    (∀ i, i ∈ loop_indices n n s ↔ s ≤ i ∧ i % 2 = s % 2 ∧ i + 1 < n) ∧
    (loop_indices n n s).Nodup ∧
    (∀ i ∈ loop_indices n n s, ∀ j ∈ loop_indices n n s, i ≠ j → i + 1 < j ∨ j + 1 < i) ∧
    is.foldl compare_swap st = sub_pass_loop n n s st ∧
    (is.foldl compare_swap st).arr = (sub_pass_loop n n s st).arr ∧
    (is.foldl compare_swap st).is_sorted = (sub_pass_loop n n s st).is_sorted := by
  have e : is.foldl compare_swap st = sub_pass_loop n n s st := by
    rw [sub_pass_loop_eq_foldl]
    exact foldl_compare_swap_perm n s is st hp
  refine ⟨mem_pass_indices n s, loop_indices_nodup n n s, ?_, e, by rw [e], by rw [e]⟩
  intro i hi j hj hne
  rw [mem_pass_indices] at hi hj
  omega

/-- Witness for C13: the odd sub-pass on five elements run as index 3, then 1. -/
theorem sub_pass_order_irrelevant_witness :
    [3, 1].Perm (loop_indices 5 5 1) ∧
    [3, 1].foldl compare_swap (init_state [5, 4, 3, 2, 1])
      = sub_pass_loop 5 5 1 (init_state [5, 4, 3, 2, 1]) :=
  ⟨by decide,
    (sub_pass_order_irrelevant 5 1 [3, 1] (init_state [5, 4, 3, 2, 1]) (by decide)).2.2.2.1⟩

/-- C14: for every input of length `n ≥ 2` the vector is in order after
`⌈n / 2⌉` phases (and stays so), the number of phases executed is at most
`⌈n / 2⌉ + 1`, which is at most `n`, and the loop exits with the flag set: the
cap `phase < n` is never what ends the loop, and the vector returned is in
order.  The same holds for the OpenMP variant under a valid schedule. -/
theorem sorted_within_half_phases (arr : List Int) (num_threads : Int) (omp_default : Nat)
    (sched : Schedule) (h2 : 2 ≤ arr.length)
    (hv : ValidSchedule arr.length (resolve_threads num_threads omp_default) sched) :
    (∀ k, (arr.length + 1) / 2 ≤ k →
      List.Sorted (fun a b => a ≤ b) ((phase_body arr.length)^[k] (init_state arr)).arr) ∧
    (odd_even_sort_sequential_run arr).phase ≤ (arr.length + 1) / 2 + 1 ∧
    (arr.length + 1) / 2 + 1 ≤ arr.length ∧
    (odd_even_sort_sequential_run arr).is_sorted = true ∧
    List.Sorted (fun a b => a ≤ b) (odd_even_sort_sequential_run arr).arr ∧
    (odd_even_sort_parallel_run arr num_threads omp_default sched).phase
      ≤ (arr.length + 1) / 2 + 1 ∧
    (odd_even_sort_parallel_run arr num_threads omp_default sched).is_sorted = true ∧
    List.Sorted (fun a b => a ≤ b)
      (odd_even_sort_parallel_run arr num_threads omp_default sched).arr := by
  rw [parallel_run_eq arr num_threads omp_default sched hv]
  have hp := sequential_run_phase_le arr h2
  have hf := sequential_run_flag arr h2
  have hs := sorted_of_chain _ (sequential_run_chain arr)
  refine ⟨?_, hp, by omega, hf, hs, hp, hf, hs⟩
  intro k hk
  obtain ⟨_, e⟩ := iterate_phase_body_run arr.length k arr (init_state arr)
    (init_state_run _ arr)
  rw [e]
  exact sorted_of_chain _ (run_passes_chain _ _ arr rfl (by
    simp only [init_state]
    omega))

/-- Witness for C14: three elements in decreasing order. -/
theorem sorted_within_half_phases_witness :
    2 ≤ [(3 : Int), 2, 1].length ∧
    ValidSchedule [(3 : Int), 2, 1].length (resolve_threads 2 1) (reversed_schedule 3 2) ∧
    (odd_even_sort_sequential_run [3, 2, 1]).phase ≤ ([(3 : Int), 2, 1].length + 1) / 2 + 1 ∧
    ([(3 : Int), 2, 1].length + 1) / 2 + 1 ≤ [(3 : Int), 2, 1].length ∧
    (odd_even_sort_sequential_run [3, 2, 1]).is_sorted = true :=
  ⟨by decide, reversed_schedule_valid 3 2 (by decide),
    (sorted_within_half_phases [3, 2, 1] 2 1 (reversed_schedule 3 2) (by decide)
      (reversed_schedule_valid 3 2 (by decide))).2.1,
    (sorted_within_half_phases [3, 2, 1] 2 1 (reversed_schedule 3 2) (by decide)
      (reversed_schedule_valid 3 2 (by decide))).2.2.1,
    (sorted_within_half_phases [3, 2, 1] 2 1 (reversed_schedule 3 2) (by decide)
      (reversed_schedule_valid 3 2 (by decide))).2.2.2.1⟩

/-- C15: every index `i` visited by a sub-pass on a vector of length `n`
satisfies `i + 1 ≤ n - 1`, also under any valid schedule, so with
`Option`-returning indexing no access fails: the checked
`odd_even_sort_sequential` and `odd_even_sort_parallel` return `some` of the
state that the unchecked functions compute. -/
theorem accesses_in_bounds (arr : List Int) (num_threads : Int) (omp_default : Nat)
    (sched : Schedule)
    (hv : ValidSchedule arr.length (resolve_threads num_threads omp_default) sched) :
    (∀ s, ∀ i ∈ loop_indices arr.length arr.length s,
      i + 1 ≤ arr.length - 1 ∧ i + 1 < arr.length) ∧
    (∀ phase odd, ∀ e ∈ sched phase odd, e.2 + 1 ≤ arr.length - 1 ∧ e.2 + 1 < arr.length) ∧
    odd_even_sort_sequential_checked arr = some (odd_even_sort_sequential_run arr) ∧
    odd_even_sort_parallel_checked arr num_threads omp_default sched
      = some (odd_even_sort_parallel_run arr num_threads omp_default sched) := by
  refine ⟨?_, ?_, sequential_checked_eq arr,
    parallel_checked_eq arr num_threads omp_default sched hv⟩
  · intro s i hi
    rw [mem_pass_indices] at hi
    omega
  · intro phase odd e he
    obtain ⟨p1, p0, _, _⟩ := hv phase
    cases odd with
    | true =>
      have hm := p1.subset (List.mem_map_of_mem Prod.snd he)
      rw [mem_pass_indices] at hm
      omega
    | false =>
      have hm := p0.subset (List.mem_map_of_mem Prod.snd he)
      rw [mem_pass_indices] at hm
      omega

/-- Witness for C15: three elements, two workers. -/
theorem accesses_in_bounds_witness :
    ValidSchedule [(3 : Int), 1, 2].length (resolve_threads 2 1) (reversed_schedule 3 2) ∧
    odd_even_sort_sequential_checked [3, 1, 2] = some (odd_even_sort_sequential_run [3, 1, 2]) ∧
    odd_even_sort_parallel_checked [3, 1, 2] 2 1 (reversed_schedule 3 2)
      = some (odd_even_sort_parallel_run [3, 1, 2] 2 1 (reversed_schedule 3 2)) :=
  ⟨reversed_schedule_valid 3 2 (by decide),
    (accesses_in_bounds [3, 1, 2] 2 1 (reversed_schedule 3 2)
      (reversed_schedule_valid 3 2 (by decide))).2.2⟩

end OddEvenSort
